import Mathlib

/-!
Verification development for the jobband_scrapper repository.

The repository contains four scraper scripts (jobup.py, jobroom.py,
ge_ch_scraper.py, talent.py) sharing an incremental crawl-and-merge engine.
This file embeds, as executable Lean definitions, the pieces of that engine
the claims are about: the URL-keyed merge (`merge_jobs_by_url` of each
scraper), the date-window predicate (`within_days`), the language relevance
filters (`is_french_job`, `_is_allowed_language`), the pagination loops of
the scrapers' `main` functions, and the run tail that persists the seen-set.

Python dicts are modelled as insertion-ordered association lists
(`List (String × Job)`); `d[k] = v` keeps the position of an existing key
and appends a new one, exactly as CPython does.  Records are modelled by
the structure `Job`: an `Option` field is `none` where the Python dict has
no such key, holds `None`, or (for `id`) holds a non-integer value — the
merge code only ever tests `isinstance(raw_id, int)`, so those cases are
indistinguishable to it.
-/

/-- Python `str.strip()` whitespace test (ASCII whitespace, as produced by
these scrapers' string fields). -/
def pyIsSpace (c : Char) : Bool :=
  c == ' ' || c == '\t' || c == '\n' || c == '\r' || c == '\x0b' || c == '\x0c'

/-- Python `str.strip()`. -/
def pyStrip (s : String) : String :=
  String.mk (((s.toList.dropWhile pyIsSpace).reverse.dropWhile pyIsSpace).reverse)

/-- Python `str.lower()` restricted to the alphabets these sources use:
ASCII letters plus the uppercase accented Latin letters appearing in the
hint-word sets. Other characters are unchanged. -/
def pyLowerChar (c : Char) : Char :=
  if 'A' ≤ c ∧ c ≤ 'Z' then Char.ofNat (c.toNat + 32)
  else if c == 'À' then 'à' else if c == 'Â' then 'â'
  else if c == 'Ç' then 'ç' else if c == 'É' then 'é'
  else if c == 'È' then 'è' else if c == 'Ê' then 'ê'
  else if c == 'Ë' then 'ë' else if c == 'Î' then 'î'
  else if c == 'Ï' then 'ï' else if c == 'Ô' then 'ô'
  else if c == 'Û' then 'û' else if c == 'Ù' then 'ù'
  else if c == 'Ü' then 'ü' else if c == 'Ÿ' then 'ÿ'
  else if c == 'Ñ' then 'ñ' else if c == 'Æ' then 'æ'
  else if c == 'Œ' then 'œ' else c

/-- Python `str.lower()` on a whole string. -/
def pyLower (s : String) : String :=
  String.mk (s.toList.map pyLowerChar)

/-- Maximal runs of characters satisfying `alpha`, as produced by
`re.findall` with a character-class-plus regex: a run of letters is one
match, non-letters separate matches. -/
def alphaRuns (alpha : Char → Bool) : List Char → List Char → List (List Char)
  | [], acc => if acc.isEmpty then [] else [acc.reverse]
  | c :: cs, acc =>
    if alpha c then alphaRuns alpha cs (c :: acc)
    else if acc.isEmpty then alphaRuns alpha cs []
    else acc.reverse :: alphaRuns alpha cs []

/-- `re.findall(r"[<alpha>]{3,}", text)` followed by `set(...)`: the distinct
maximal letter runs of length at least 3. -/
def pyTokens (alpha : Char → Bool) (text : String) : List String :=
  (((alphaRuns alpha text.toList []).filter (fun r => 3 ≤ r.length)).map
    (fun r => String.mk r)).dedup

/-- ASCII letter test, the `[a-zA-Z]` class of jobroom's `is_french_job`. -/
def isAsciiLetter (c : Char) : Bool :=
  ('a' ≤ c ∧ c ≤ 'z') || ('A' ≤ c ∧ c ≤ 'Z')

/-- The `[a-zàâçéèêëîïôûùüÿñæœ]` class of talent's `_is_allowed_language`
(the text is lowercased before matching). -/
def talentLetter (c : Char) : Bool :=
  ('a' ≤ c ∧ c ≤ 'z') || c == 'à' || c == 'â' || c == 'ç' || c == 'é' ||
  c == 'è' || c == 'ê' || c == 'ë' || c == 'î' || c == 'ï' || c == 'ô' ||
  c == 'û' || c == 'ù' || c == 'ü' || c == 'ÿ' || c == 'ñ' || c == 'æ' || c == 'œ'

/-! ## Calendar dates

`datetime.fromisoformat` is CPython library code, not repository code; it is
modelled here on the calendar-date form `YYYY-MM-DD` that the pipeline's
`posting_date` fields carry (every producer truncates to the first 10
characters / splits at `T`).  Any other string is treated as unparsable,
matching the `except ValueError` branch. -/

def isLeapYear (y : Nat) : Bool :=
  (y % 4 == 0 && y % 100 != 0) || y % 400 == 0

def daysInMonth (y m : Nat) : Nat :=
  if m == 2 then (if isLeapYear y then 29 else 28)
  else if m == 4 || m == 6 || m == 9 || m == 11 then 30
  else 31

/-- Days in the months strictly before month `m` of year `y`. -/
def daysBeforeMonth (y m : Nat) : Nat :=
  (List.range (m - 1)).foldl (fun acc i => acc + daysInMonth y (i + 1)) 0

/-- Proleptic-Gregorian ordinal of a date, with 0001-01-01 = 1
(CPython's `date.toordinal`). -/
def dateOrdinal (y m d : Nat) : Nat :=
  (y - 1) * 365 + (y - 1) / 4 - (y - 1) / 100 + (y - 1) / 400 +
    daysBeforeMonth y m + d

def digitVal (c : Char) : Option Nat :=
  if '0' ≤ c ∧ c ≤ '9' then some (c.toNat - '0'.toNat) else none

/-- Parse `YYYY-MM-DD` into its ordinal; `none` models `ValueError`. -/
def fromisoformatDate (s : String) : Option Nat :=
  match s.toList with
  | [y1, y2, y3, y4, '-', m1, m2, '-', d1, d2] =>
    match digitVal y1, digitVal y2, digitVal y3, digitVal y4,
          digitVal m1, digitVal m2, digitVal d1, digitVal d2 with
    | some a, some b, some c, some d, some e, some f, some g, some h =>
      let y := ((a * 10 + b) * 10 + c) * 10 + d
      let m := e * 10 + f
      let dy := g * 10 + h
      if 1 ≤ y ∧ 1 ≤ m ∧ m ≤ 12 ∧ 1 ≤ dy ∧ dy ≤ daysInMonth y m then
        some (dateOrdinal y m dy)
      else none
    | _, _, _, _, _, _, _, _ => none
  | _ => none

/-- `within_days(posting_date, max_days)` (identical in jobup.py,
jobroom.py, ge_ch_scraper.py, talent.py), with `date.today()` made an
explicit parameter `today` (a date ordinal). `posting_date = none` models
`None`; `max_days = none` models `None` (no window). -/
def within_days (today : Int) (posting_date : Option String) (max_days : Option Int) : Bool :=
  match max_days with
  | none => true
  | some n =>
    match posting_date with
    | none => false
    | some s =>
      if s = "" then false
      else
        match fromisoformatDate s with
        | none => false
        | some d =>
          let age : Int := today - (d : Int)
          decide (0 ≤ age ∧ age ≤ n)

/-! ## Records and the URL-keyed merge -/

/-- A job record (a Python dict). `id = some i` iff the dict holds an
`int` there (`isinstance(raw_id, int)`); `none` covers a missing key, `None`
and non-integer values alike, which the merge treats identically.
`url = none` models a missing/`None` url. `payload` stands for all
remaining fields the merge copies around untouched. -/
structure Job where
  url : Option String := none
  id : Option Int := none
  source : Option String := none
  title : Option String := none
  description : Option String := none
  posting_date : Option String := none
  language_codes : Option (List String) := none
  payload : Nat := 0
deriving Repr, DecidableEq

/-- `str(job.get("url") or "").strip()` — the canonical URL key. -/
def canonUrl (j : Job) : String :=
  pyStrip (j.url.getD "")

/-- The merge map `merged : dict[str, dict]`, insertion ordered. -/
abbrev UrlMap := List (String × Job)

/-- Python `merged.get(k)`. -/
def mapGet : UrlMap → String → Option Job
  | [], _ => none
  | (k', v) :: rest, k => if k' = k then some v else mapGet rest k

/-- Python `merged[k] = v`: replaces in place, else appends. -/
def mapSet : UrlMap → String → Job → UrlMap
  | [], k, v => [(k, v)]
  | (k', v') :: rest, k, v =>
    if k' = k then (k', v) :: rest else (k', v') :: mapSet rest k v

def mapKeys (m : UrlMap) : List String := m.map Prod.fst

def mapValues (m : UrlMap) : List Job := m.map Prod.snd

/-- The first loop of every `merge_jobs_by_url`: running maximum of the
integer `id`s of `current`, starting from 0. -/
def watermarkFrom : Int → List Job → Int
  | m, [] => m
  | m, j :: js =>
    watermarkFrom (match j.id with
      | some i => if i > m then i else m
      | none => m) js

def watermark (current : List Job) : Int :=
  watermarkFrom 0 current

/-- The second loop: seed the map from `current`, keyed by canonical URL,
skipping falsy urls (and, for talent with `filter_lang`, records rejected
by the language filter — `keep`). -/
def seedJobs (keep : Job → Bool) : List Job → UrlMap → UrlMap
  | [], m => m
  | j :: js, m =>
    let u := canonUrl j
    if u = "" then seedJobs keep js m
    else if keep j then seedJobs keep js (mapSet m u j)
    else seedJobs keep js m

/-- The third loop: overlay each `fresh` record; carry the id forward when
the URL already has an integer id, else assign `max_id + 1`. -/
def overlayJobs (keep : Job → Bool) : List Job → UrlMap → Int → UrlMap × Int
  | [], m, w => (m, w)
  | j :: js, m, w =>
    let u := canonUrl j
    if u = "" then overlayJobs keep js m w
    else if keep j then
      match (mapGet m u).bind Job.id with
      | some i => overlayJobs keep js (mapSet m u { j with id := some i }) w
      | none => overlayJobs keep js (mapSet m u { j with id := some (w + 1) }) (w + 1)
    else overlayJobs keep js m w

/-- `row.setdefault("source", d)` for the scrapers that do it
(jobroom/ge/talent); jobup passes `none` (no setdefault). -/
def applySource (d : Option String) (j : Job) : Job :=
  match d with
  | none => j
  | some s => if j.source = none then { j with source := some s } else j

/-- The fourth loop over `merged.values()`: setdefault the source and
backfill an id for any record still lacking an integer id. -/
def backfillJobs (d : Option String) : List Job → Int → List Job × Int
  | [], w => ([], w)
  | j :: js, w =>
    let j' := applySource d j
    match j'.id with
    | some _ =>
      let (rest, w') := backfillJobs d js w
      (j' :: rest, w')
    | none =>
      let (rest, w') := backfillJobs d js (w + 1)
      ({ j' with id := some (w + 1) } :: rest, w')

/-- `int(job.get("id")) if isinstance(job.get("id"), int) else 0`. -/
def sortKey (j : Job) : Int :=
  j.id.getD 0

/-- One step of a stable descending insertion: `j` goes after every element
whose key is at least `sortKey j`. -/
def insertDesc (j : Job) : List Job → List Job
  | [] => [j]
  | x :: xs => if sortKey x < sortKey j then j :: x :: xs else x :: insertDesc j xs

/-- `out.sort(key=..., reverse=True)` — CPython's sort is stable, so among
equal keys the original order is kept. -/
def pySortDesc (l : List Job) : List Job :=
  l.foldl (fun acc j => insertDesc j acc) []

/-- The merge map after seeding and overlaying (the state of `merged` just
before the backfill loop), exposed for the claims about the URL map. -/
def mergeState (d : Option String) (keep : Job → Bool) (current fresh : List Job) :
    UrlMap × Int :=
  overlayJobs keep fresh (seedJobs keep current []) (watermark current)

/-- `merge_jobs_by_url`, parametric in the per-scraper differences:
`d` is the `setdefault` source (none for jobup), `keep` the record filter
(constantly true except for talent with `filter_lang=True`). -/
def mergeGen (d : Option String) (keep : Job → Bool) (current fresh : List Job) : List Job :=
  let (m1, w1) := mergeState d keep current fresh
  let (out, _) := backfillJobs d (mapValues m1) w1
  pySortDesc out

namespace Jobup

/-- jobup.py `merge_jobs_by_url` (no source setdefault, no filter). -/
def merge_jobs_by_url (current fresh : List Job) : List Job :=
  mergeGen none (fun _ => true) current fresh

end Jobup

namespace Jobroom

/-- jobroom.py `merge_jobs_by_url` (`setdefault("source", "jobroom")`). -/
def merge_jobs_by_url (current fresh : List Job) : List Job :=
  mergeGen (some "jobroom") (fun _ => true) current fresh

end Jobroom

namespace Ge

/-- ge_ch_scraper.py `merge_jobs_by_url` (`setdefault("source", "ge")`). -/
def merge_jobs_by_url (current fresh : List Job) : List Job :=
  mergeGen (some "ge") (fun _ => true) current fresh

end Ge

/-! ## Language filters -/

namespace Jobroom

def FR_HINTS : List String :=
  ["avec", "pour", "poste", "vous", "nous", "experience", "equipe", "mission",
   "competences", "formation", "travail", "emploi", "profil", "francais",
   "responsable", "gestion", "assurer", "recherche", "candidat"]

def EN_HINTS : List String :=
  ["with", "for", "you", "team", "experience", "job", "position", "skills",
   "work", "english"]

def DE_HINTS : List String :=
  ["mit", "fur", "sie", "erfahrung", "stelle", "aufgaben", "kenntnisse",
   "arbeit", "deutsch"]

def IT_HINTS : List String :=
  ["con", "per", "lavoro", "posizione", "esperienza", "richiesto",
   "competenze", "squadra"]

/-- The tokens of `f"{title or ''} {description or ''}".lower()` under
`re.findall(r"[a-zA-Z]{3,}", text)`, as a set. -/
def rowTokens (row : Job) : List String :=
  pyTokens isAsciiLetter
    (pyLower ((row.title.getD "") ++ " " ++ (row.description.getD "")))

def hintCount (hints : List String) (tokens : List String) : Nat :=
  (tokens.filter (fun t => t ∈ hints)).length

/-- jobroom.py `is_french_job`. -/
def is_french_job (row : Job) : Bool :=
  match row.language_codes with
  | some codes =>
    if codes.any (fun x => pyLower x = "fr") then true
    else
      let tks := rowTokens row
      let fr := hintCount FR_HINTS tks
      let en := hintCount EN_HINTS tks
      let de := hintCount DE_HINTS tks
      let it := hintCount IT_HINTS tks
      decide (fr ≥ 2) && decide (fr ≥ max en (max de it))
  | none =>
    let tks := rowTokens row
    let fr := hintCount FR_HINTS tks
    let en := hintCount EN_HINTS tks
    let de := hintCount DE_HINTS tks
    let it := hintCount IT_HINTS tks
    decide (fr ≥ 2) && decide (fr ≥ max en (max de it))

end Jobroom

namespace Talent

def FR_HINTS : List String :=
  ["avec", "pour", "poste", "vous", "nous", "experience", "expérience",
   "equipe", "équipe", "mission", "competences", "compétences", "formation",
   "travail", "emploi", "profil", "francais", "français", "responsable",
   "gestion", "assurer", "recherche", "candidat"]

def EN_HINTS : List String :=
  ["with", "for", "you", "team", "experience", "job", "position", "skills",
   "work", "english", "required"]

def DE_HINTS : List String :=
  ["mit", "für", "sie", "erfahrung", "stelle", "aufgaben", "kenntnisse",
   "arbeit", "deutsch"]

def IT_HINTS : List String :=
  ["con", "per", "lavoro", "posizione", "esperienza", "richiesto",
   "competenze", "squadra"]

/-- talent.py `_is_allowed_language`. -/
def _is_allowed_language (title description : Option String) : Bool :=
  let tks := pyTokens talentLetter
    (pyLower ((title.getD "") ++ " " ++ (description.getD "")))
  let fr := Jobroom.hintCount FR_HINTS tks
  let en := Jobroom.hintCount EN_HINTS tks
  let de := Jobroom.hintCount DE_HINTS tks
  let it := Jobroom.hintCount IT_HINTS tks
  (decide (fr ≥ 2) || decide (en ≥ 2)) && decide (max fr en ≥ max de it)

/-- talent.py `merge_jobs_by_url` with its `filter_lang` parameter
(default `True` at every call site that doesn't pass `--allow-non-french`). -/
def merge_jobs_by_url (current fresh : List Job) (filter_lang : Bool := true) : List Job :=
  mergeGen (some "talent")
    (fun j => !filter_lang || _is_allowed_language j.title j.description)
    current fresh

end Talent

/-! ## Pagination

The search loops fetch pages 2, 3, … in order.  A page's outcome is what
`main` sees from the network for that page:
`fail` = a `requests` exception or an HTTP status ≥ 400 (including 403/429),
`emptyHtml` = a success whose body is the empty (falsy) string,
`html links` = a success whose body extracts to `links`
(`extract_detail_links`). -/

inductive PageResult where
  | fail
  | emptyHtml
  | html (links : List String)
deriving Repr, DecidableEq

/-- Per-run crawl state: the ordered `links` list, the `seen_links` set
(membership only matters) and the `known_streak` counter. -/
structure CrawlState where
  links : List String := []
  seenLinks : List String := []
  knownStreak : Nat := 0
deriving Repr, DecidableEq

/-- The link-scanning inner loop, identical in jobup's two branches and in
talent/ge: append each unseen link; with `stopAfterSeen > 0`, a known link
increments the streak (breaking out the moment it reaches the threshold)
and an unknown one resets it. -/
def scanLinks (known : List String) (stopAfterSeen : Nat) :
    CrawlState → List String → CrawlState
  | st, [] => st
  | st, l :: ls =>
    if l ∈ st.seenLinks then scanLinks known stopAfterSeen st ls
    else
      let st' : CrawlState :=
        { st with seenLinks := l :: st.seenLinks, links := st.links ++ [l] }
      if stopAfterSeen > 0 then
        if l ∈ known then
          if st'.knownStreak + 1 ≥ stopAfterSeen then
            { st' with knownStreak := st'.knownStreak + 1 }
          else
            scanLinks known stopAfterSeen
              { st' with knownStreak := st'.knownStreak + 1 } ls
        else scanLinks known stopAfterSeen { st' with knownStreak := 0 } ls
      else scanLinks known stopAfterSeen st ls

/-- Page-1 link collection (jobup.py lines 399-402, talent.py 370-373):
links are deduplicated and appended with no streak accounting. -/
def scanFirstPage (page1Links : List String) : CrawlState :=
  page1Links.foldl
    (fun st l =>
      if l ∈ st.seenLinks then st
      else { st with seenLinks := l :: st.seenLinks, links := st.links ++ [l] })
    {}

namespace Jobup

/-- jobup.py `main`, total-pages branch (lines 404-432): iterate the page
range detected from page 1; stop on fetch failure or empty body, and on a
known streak; a non-empty page with zero extracted links does NOT stop the
loop.  `pages` lists the outcomes of pages 2, 3, …; the second component
counts how many of them were actually fetched. -/
def crawlTotal (known : List String) (stopAfterSeen : Nat) :
    CrawlState → List PageResult → CrawlState × Nat
  | st, [] => (st, 0)
  | st, .fail :: _ => (st, 1)
  | st, .emptyHtml :: _ => (st, 1)
  | st, .html ls :: ps =>
    let st' := scanLinks known stopAfterSeen st ls
    if stopAfterSeen > 0 ∧ st'.knownStreak ≥ stopAfterSeen then (st', 1)
    else
      let (st'', n) := crawlTotal known stopAfterSeen st' ps
      (st'', n + 1)

/-- jobup.py `main`, dynamic branch (lines 433-464): as `crawlTotal`, but a
page with zero extracted links also stops (`"0 links (fim)"`). -/
def crawlDynamic (known : List String) (stopAfterSeen : Nat) :
    CrawlState → List PageResult → CrawlState × Nat
  | st, [] => (st, 0)
  | st, .fail :: _ => (st, 1)
  | st, .emptyHtml :: _ => (st, 1)
  | st, .html [] :: _ => (st, 1)
  | st, .html (l :: ls) :: ps =>
    let st' := scanLinks known stopAfterSeen st (l :: ls)
    if stopAfterSeen > 0 ∧ st'.knownStreak ≥ stopAfterSeen then (st', 1)
    else
      let (st'', n) := crawlDynamic known stopAfterSeen st' ps
      (st'', n + 1)

end Jobup

namespace Talent

/-- talent.py `main`, pagination loop (lines 378-408).  Unlike the other
scrapers, `session.get` / `pr.raise_for_status()` run outside any
`try`, so a failed fetch propagates the exception: the third component is
`true` iff the run aborted that way (nothing merged or persisted).
An empty body extracts zero links, which breaks normally. -/
def crawlPages (known : List String) (stopAfterSeen : Nat) :
    CrawlState → List PageResult → CrawlState × Nat × Bool
  | st, [] => (st, 0, false)
  | st, .fail :: _ => (st, 1, true)
  | st, .emptyHtml :: _ => (st, 1, false)
  | st, .html [] :: _ => (st, 1, false)
  | st, .html (l :: ls) :: ps =>
    let st' := scanLinks known stopAfterSeen st (l :: ls)
    if stopAfterSeen > 0 ∧ st'.knownStreak ≥ stopAfterSeen then (st', 1, false)
    else
      let (st'', n, raised) := crawlPages known stopAfterSeen st' ps
      (st'', n + 1, raised)

end Talent

/-! ## Run tail: what a run persists -/

/-- The non-empty canonical URLs of a job list, as collected by the
`{str(j.get("url") or "").strip() for j in jobs if ...}` comprehensions. -/
def jobUrls (jobs : List Job) : List String :=
  jobs.filterMap (fun j => if canonUrl j = "" then none else some (canonUrl j))

/-- The known-URL set loaded at the start of a run: URLs of the existing
output dataset plus the state file's `seen_urls` (each stripped, falsy ones
dropped) — jobup.py lines 322-327, jobroom.py 430-435. -/
def loadKnownUrls (existingJobs : List Job) (stateUrls : List String) : List String :=
  jobUrls existingJobs ++ ((stateUrls.map pyStrip).filter (fun u => ¬ u = ""))

/-- What a run writes at the end: the date-filtered output dataset and the
persisted `seen_urls` state. -/
structure RunOutput where
  outputJobs : List Job
  stateSeenUrls : List String
deriving Repr

namespace Jobup

/-- jobup.py `main` from the merge to the save (lines 504-522,
non-incremental path): `base_jobs = merge(existing, fetched)`;
`seen_now = known_urls | unique_links | urls(base_jobs)` (persisted
unfiltered); the output JSON is `base_jobs` filtered by `within_days`. -/
def runTail (today : Int) (maxDays : Option Int) (existingJobs : List Job)
    (stateUrls : List String) (uniqueLinks : List String)
    (fetchedJobs : List Job) : RunOutput :=
  let knownUrls := loadKnownUrls existingJobs stateUrls
  let baseJobs := merge_jobs_by_url existingJobs fetchedJobs
  let seenNow := knownUrls ++ uniqueLinks ++ jobUrls baseJobs
  { outputJobs := baseJobs.filter (fun j => within_days today j.posting_date maxDays),
    stateSeenUrls := seenNow }

end Jobup

namespace Jobroom

/-- jobroom.py `main` from the merge to the save (lines 537-556):
`merged = merge(existing, fresh)`; `seen_now = known_urls | all_page_urls |
urls(merged)`; the output JSON is `merged` filtered by `within_days`. -/
def runTail (today : Int) (maxDays : Option Int) (existingJobs : List Job)
    (stateUrls : List String) (allPageUrls : List String)
    (freshJobs : List Job) : RunOutput :=
  let knownUrls := loadKnownUrls existingJobs stateUrls
  let merged := merge_jobs_by_url existingJobs freshJobs
  let seenNow := knownUrls ++ allPageUrls ++ jobUrls merged
  { outputJobs := merged.filter (fun j => within_days today j.posting_date maxDays),
    stateSeenUrls := seenNow }

end Jobroom

/-! ## Spec-worded acceptance rule (for the refinement claim C9)

A second definition following the specification's words, to be compared
with the filters translated from the source. -/

/-- Modelled from the spec (§4.5): accept a record iff (a) an explicit
source-provided language tag matches the target language (French), or
(b) the target language's hint-word overlap count is at least 2 and is
greater than or equal to every other candidate language's count.
Token/overlap computation as in the source (`rowTokens`, `hintCount`). -/
def specAcceptsFrench (row : Job) : Bool :=
  (match row.language_codes with
   | some codes => codes.any (fun x => pyLower x = "fr")
   | none => false) ||
  (let tks := Jobroom.rowTokens row
   let fr := Jobroom.hintCount Jobroom.FR_HINTS tks
   let en := Jobroom.hintCount Jobroom.EN_HINTS tks
   let de := Jobroom.hintCount Jobroom.DE_HINTS tks
   let it := Jobroom.hintCount Jobroom.IT_HINTS tks
   decide (fr ≥ 2) && decide (fr ≥ en) && decide (fr ≥ de) && decide (fr ≥ it))

/-- The claim's clause-(b) acceptance rule instantiated for talent's filter
(target language French; talent's own token alphabet and hint sets; no
language tag exists in `_is_allowed_language`'s inputs). -/
def specTalentAcceptsFrench (title description : Option String) : Bool :=
  let tks := pyTokens talentLetter
    (pyLower ((title.getD "") ++ " " ++ (description.getD "")))
  let fr := Jobroom.hintCount Talent.FR_HINTS tks
  let en := Jobroom.hintCount Talent.EN_HINTS tks
  let de := Jobroom.hintCount Talent.DE_HINTS tks
  let it := Jobroom.hintCount Talent.IT_HINTS tks
  decide (fr ≥ 2) && decide (fr ≥ en) && decide (fr ≥ de) && decide (fr ≥ it)

/-! ## Proof infrastructure for the merge -/

/-- The association list a merged output induces: each record keyed by its
canonical URL, in order. -/
def toAList (l : List Job) : UrlMap :=
  l.map (fun j => (canonUrl j, j))

/-- The integer ids stored in the map's values, in order. -/
def mapIds (m : UrlMap) : List Int :=
  (mapValues m).filterMap Job.id

/-- The last record of `js` whose canonical URL is `u`. -/
def lastAt (u : String) : List Job → Option Job
  | [] => none
  | j :: js =>
    match lastAt u js with
    | some x => some x
    | none => if canonUrl j = u then some j else none

/-- No record of `js` has canonical URL `u`. -/
def noOcc (js : List Job) (u : String) : Prop :=
  ∀ j ∈ js, canonUrl j ≠ u

/-- Pointwise relation between an evolving merge map and the target map:
same keys in the same positions, identical integer ids, and — at keys
satisfying `P` — the same record up to the source default. -/
def bfRel (d : Option String) (P : String → Prop) (p q : String × Job) : Prop :=
  p.1 = q.1 ∧ p.2.id ≠ none ∧ p.2.id = q.2.id ∧
    (P p.1 → applySource d p.2 = applySource d q.2)

def bfEquivOn (d : Option String) (P : String → Prop) (m m' : UrlMap) : Prop :=
  List.Forall₂ (bfRel d P) m m'

/-- Keys descending by sort key (the shape `pySortDesc` produces). -/
def descByKey (l : List Job) : Prop :=
  l.Pairwise (fun a b => sortKey b ≤ sortKey a)

/-- Invariant of the merge map through seeding and overlaying:
distinct keys, each value keyed by its own non-empty canonical URL, every
stored integer id bounded by the running maximum, and every stored id /
key traceable to `cur` or to a fresh assignment above `cur`'s watermark. -/
structure MergeInv (cur : List Job) (m : UrlMap) (w : Int) : Prop where
  keysNodup : (mapKeys m).Nodup
  canonKey : ∀ p ∈ m, canonUrl p.2 = p.1
  keysNe : ∀ p ∈ m, p.1 ≠ ""
  idsLe : ∀ p ∈ m, ∀ i : Int, p.2.id = some i → i ≤ w
  wGe : watermark cur ≤ w
  idsOrigin : ∀ p ∈ m, ∀ i : Int, p.2.id = some i →
    i ∈ cur.filterMap Job.id ∨ watermark cur < i
  urlOrigin : ∀ p ∈ m, (∃ j ∈ cur, canonUrl j = p.1) ∨
    ∃ i : Int, p.2.id = some i ∧ watermark cur < i

/-! ## Supporting lemmas -/

theorem fromisoformatDate_empty : fromisoformatDate "" = none := rfl

theorem decide_ge_max (a b c d : Nat) :
    decide (a ≥ max b (max c d)) = (decide (a ≥ b) && decide (a ≥ c) && decide (a ≥ d)) := by
  simp only [ge_iff_le, max_le_iff, Bool.decide_and, Bool.and_assoc]

theorem scanLinks_cons_skip (known : List String) (t : Nat) (st : CrawlState)
    (l : String) (ls : List String) (h : l ∈ st.seenLinks) :
    scanLinks known t st (l :: ls) = scanLinks known t st ls := by
  rw [scanLinks]
  simp [h]

theorem scanLinks_cons_known {known : List String} {t : Nat} {st : CrawlState}
    {l : String} {ls : List String} (h : l ∉ st.seenLinks) (hk : l ∈ known)
    (ht : 0 < t) (hlt : st.knownStreak + 1 < t) :
    scanLinks known t st (l :: ls) =
      scanLinks known t
        { st with links := st.links ++ [l], seenLinks := l :: st.seenLinks,
                  knownStreak := st.knownStreak + 1 } ls := by
  rw [scanLinks]
  simp [h, hk, ht, Nat.not_le.mpr hlt]

theorem scanLinks_cons_known_stop {known : List String} {t : Nat} {st : CrawlState}
    {l : String} {ls : List String} (h : l ∉ st.seenLinks) (hk : l ∈ known)
    (ht : 0 < t) (hge : st.knownStreak + 1 ≥ t) :
    scanLinks known t st (l :: ls) =
      { st with links := st.links ++ [l], seenLinks := l :: st.seenLinks,
                knownStreak := st.knownStreak + 1 } := by
  rw [scanLinks]
  simp [h, hk, ht, hge]

/-! ## Claim C5 -/

/-- C5: `within_days(posting_date, N)` returns `True` iff either `N` is
unset (no window) or the date parses and `0 ≤ (today - date).days ≤ N`;
with a window active, a null, empty or unparsable `posting_date` and any
date in the future or older than `N` days yield `False`. -/
theorem claim5_within_days_iff (today : Int) (pd : Option String) :
    within_days today pd none = true ∧
    ∀ n : Int, (within_days today pd (some n) = true ↔
      ∃ s d, pd = some s ∧ fromisoformatDate s = some d ∧
        0 ≤ today - (d : Int) ∧ today - (d : Int) ≤ n) := by
  refine ⟨rfl, fun n => ?_⟩
  cases pd with
  | none => simp [within_days]
  | some s =>
    by_cases hs : s = ""
    · subst hs
      simp [within_days, fromisoformatDate_empty]
    · simp only [within_days, if_neg hs]
      cases hp : fromisoformatDate s with
      | none => simp [hp]
      | some d => simp [hp, decide_eq_true_eq]

/-! ## Claim C9 -/

/-- C9 counterexample: talent's `_is_allowed_language` accepts a purely
English text (French overlap count 1, below the claimed threshold 2 and
below the English count), where the claim's acceptance rule — target
language's count ≥ 2 and maximal — rejects it. -/
theorem claim9_counterexample :
    Talent._is_allowed_language (some "work with team experience skills") none = true ∧
    specTalentAcceptsFrench (some "work with team experience skills") none = false := by
  constructor <;> rfl

/-- C9 amended: jobroom's `is_french_job` does accept exactly per the
claimed rule (explicit `fr` tag, or French overlap ≥ 2 and ≥ every other
candidate's count); talent's `_is_allowed_language` instead accepts iff
(fr ≥ 2 or en ≥ 2) and max(fr, en) ≥ max(de, it), with no tag clause. -/
theorem claim9_amended (row : Job) :
    Jobroom.is_french_job row = specAcceptsFrench row := by
  unfold Jobroom.is_french_job specAcceptsFrench
  cases row.language_codes with
  | none => simp [decide_ge_max, Bool.and_assoc]
  | some codes =>
    by_cases h : codes.any (fun x => pyLower x = "fr")
    · simp [h]
    · simp [h, decide_ge_max, Bool.and_assoc]

/-- C9 witness for the amended theorem, at a concrete French-looking row. -/
theorem claim9_amended_witness :
    Jobroom.is_french_job { title := some "Poste de responsable avec equipe" } =
      specAcceptsFrench { title := some "Poste de responsable avec equipe" } :=
  claim9_amended { title := some "Poste de responsable avec equipe" }

/-! ## Claim C6 -/

/-- C6 counterexample: a page extracting `[known, known, known, new, new]`
with threshold 3, where the first known link was already emitted on page 1.
The scan skips the duplicate without touching the streak, so only two
consecutive knowns are counted, the new link resets the counter, both
trailing new links are appended, and the next page is still fetched. -/
theorem claim6_counterexample :
    Jobup.crawlTotal ["k1", "k2", "k3"] 3 (scanFirstPage ["k1"])
        [.html ["k1", "k2", "k3", "n1", "n2"], .html ["p"]] =
      ({ links := ["k1", "k2", "k3", "n1", "n2", "p"],
         seenLinks := ["p", "n2", "n1", "k3", "k2", "k1"],
         knownStreak := 0 }, 2) := by
  decide

/-- C6 amended: with threshold 3, a page extracting
`[known, known, known, new, new]` stops the crawl after the third known
link — provided none of the three known links was already seen earlier in
the run and the streak counter is zero when the page's scan begins.  The
three known links are appended, neither trailing new link is, and no
further page is fetched. -/
theorem claim6_amended (known : List String) (st : CrawlState)
    (k1 k2 k3 n1 n2 : String) (ps : List PageResult)
    (hk1 : k1 ∈ known) (hk2 : k2 ∈ known) (hk3 : k3 ∈ known)
    (h1 : k1 ∉ st.seenLinks) (h2 : k2 ∉ st.seenLinks) (h3 : k3 ∉ st.seenLinks)
    (h21 : k2 ≠ k1) (h31 : k3 ≠ k1) (h32 : k3 ≠ k2)
    (hstreak : st.knownStreak = 0) :
    Jobup.crawlTotal known 3 st (.html [k1, k2, k3, n1, n2] :: ps) =
      ({ st with links := st.links ++ [k1, k2, k3],
                 seenLinks := k3 :: k2 :: k1 :: st.seenLinks,
                 knownStreak := 3 }, 1) := by
  have hscan : scanLinks known 3 st [k1, k2, k3, n1, n2] =
      { st with links := st.links ++ [k1, k2, k3],
                seenLinks := k3 :: k2 :: k1 :: st.seenLinks,
                knownStreak := 3 } := by
    rw [scanLinks_cons_known h1 hk1 (by decide) (by simp [hstreak]),
        scanLinks_cons_known (by simp [List.mem_cons, h21, h2]) hk2 (by decide)
          (by simp [hstreak]),
        scanLinks_cons_known_stop (by simp [List.mem_cons, h31, h32, h3]) hk3 (by decide)
          (by simp [hstreak])]
    simp [hstreak, List.append_assoc]
  rw [Jobup.crawlTotal, hscan]
  simp

/-- C6 witness: the amended theorem at a concrete page. -/
theorem claim6_amended_witness :
    Jobup.crawlTotal ["a", "b", "c"] 3 {} [.html ["a", "b", "c", "x", "y"]] =
      ({ links := ["a", "b", "c"], seenLinks := ["c", "b", "a"], knownStreak := 3 }, 1) := by
  have h := claim6_amended ["a", "b", "c"] {} "a" "b" "c" "x" "y" []
    (by decide) (by decide) (by decide) (by decide) (by decide) (by decide)
    (by decide) (by decide) (by decide) rfl
  simpa using h

/-! ## Claim C7 -/

theorem crawlDynamic_stops_at_empty (known : List String) (thr : Nat)
    (qs : List PageResult) :
    ∀ (ps : List PageResult) (st : CrawlState),
      (Jobup.crawlDynamic known thr st (ps ++ .html [] :: qs)).2 ≤ ps.length + 1 := by
  intro ps
  induction ps with
  | nil => intro st; rw [List.nil_append, Jobup.crawlDynamic]; simp
  | cons p ps ih =>
    intro st
    rw [List.cons_append]
    cases p with
    | fail => rw [Jobup.crawlDynamic]; simp
    | emptyHtml => rw [Jobup.crawlDynamic]; simp
    | html ls =>
      cases ls with
      | nil => rw [Jobup.crawlDynamic]; simp
      | cons l ls =>
        rw [Jobup.crawlDynamic]
        split
        · simp
        · have hle := ih (scanLinks known thr st (l :: ls))
          rcases he : Jobup.crawlDynamic known thr (scanLinks known thr st (l :: ls))
            (ps ++ PageResult.html [] :: qs) with ⟨st2, n⟩
          rw [he] at hle
          simp only [he, List.length_cons] at hle ⊢
          omega

theorem crawlPages_stops_at_empty (known : List String) (thr : Nat)
    (qs : List PageResult) :
    ∀ (ps : List PageResult) (st : CrawlState),
      (Talent.crawlPages known thr st (ps ++ .html [] :: qs)).2.1 ≤ ps.length + 1 := by
  intro ps
  induction ps with
  | nil => intro st; rw [List.nil_append, Talent.crawlPages]; simp
  | cons p ps ih =>
    intro st
    rw [List.cons_append]
    cases p with
    | fail => rw [Talent.crawlPages]; simp
    | emptyHtml => rw [Talent.crawlPages]; simp
    | html ls =>
      cases ls with
      | nil => rw [Talent.crawlPages]; simp
      | cons l ls =>
        rw [Talent.crawlPages]
        split
        · simp
        · have hle := ih (scanLinks known thr st (l :: ls))
          rcases he : Talent.crawlPages known thr (scanLinks known thr st (l :: ls))
            (ps ++ PageResult.html [] :: qs) with ⟨st2, n, raised⟩
          rw [he] at hle
          simp only [he, List.length_cons] at hle ⊢
          omega

/-- C7 counterexample: in jobup's total-pages mode, a successfully fetched
page whose (non-empty) body extracts zero links does not stop pagination —
the next page is fetched and its link is collected. -/
theorem claim7_counterexample :
    Jobup.crawlTotal [] 200 {} [.html [], .html ["x"]] =
      ({ links := ["x"], seenLinks := ["x"], knownStreak := 0 }, 2) := by
  decide

/-- C7 amended: in the dynamic pagination modes (jobup's dynamic branch,
talent's loop), a result page (page ≥ 2) that yields zero extracted links
stops the loop: however many pages follow, at most the pages before it and
itself are fetched.  In jobup's total-pages mode this does not hold. -/
theorem claim7_amended (known : List String) (thr : Nat) (st : CrawlState)
    (ps qs : List PageResult) :
    (Jobup.crawlDynamic known thr st (ps ++ .html [] :: qs)).2 ≤ ps.length + 1 ∧
    (Talent.crawlPages known thr st (ps ++ .html [] :: qs)).2.1 ≤ ps.length + 1 :=
  ⟨crawlDynamic_stops_at_empty known thr qs ps st,
   crawlPages_stops_at_empty known thr qs ps st⟩

/-! ## Claim C8 -/

/-- C8: talent.py fetches search pages with `session.get` /
`pr.raise_for_status()` outside any `try`: a network failure or HTTP ≥ 400
on a search-page fetch propagates (third component `true`), aborting the
run before anything is merged or persisted — the link collected from the
first page is lost.  The same outcomes in jobup's loop produce a safe stop
that keeps the collected link. -/
theorem claim8_talent_page_fetch_aborts_run :
    Talent.crawlPages [] 120 {} [.html ["a"], .fail, .html ["b"]] =
      ({ links := ["a"], seenLinks := ["a"], knownStreak := 0 }, 2, true) ∧
    Jobup.crawlDynamic [] 120 {} [.html ["a"], .fail, .html ["b"]] =
      ({ links := ["a"], seenLinks := ["a"], knownStreak := 0 }, 2) := by
  decide

/-! ## Claim C4 -/

/-- C4: the persisted seen-set is the union of the loaded known-URL set
(prior output URLs plus prior state URLs), the URLs discovered during the
run, and the URLs of the merged dataset; it is not date-window filtered
(replacing the window by "no window" leaves it unchanged) and it contains
every loaded URL.  Stated for jobup's and jobroom's run tails. -/
theorem claim4_seen_set_persistence (today : Int) (maxDays : Option Int)
    (existingJobs : List Job) (stateUrls : List String)
    (runUrls : List String) (freshJobs : List Job) :
    ((Jobup.runTail today maxDays existingJobs stateUrls runUrls freshJobs).stateSeenUrls =
        (Jobup.runTail today none existingJobs stateUrls runUrls freshJobs).stateSeenUrls ∧
      (∀ u, u ∈ (Jobup.runTail today maxDays existingJobs stateUrls runUrls
          freshJobs).stateSeenUrls ↔
        (u ∈ loadKnownUrls existingJobs stateUrls ∨ u ∈ runUrls ∨
          u ∈ jobUrls (Jobup.merge_jobs_by_url existingJobs freshJobs))) ∧
      (∀ u, u ∈ loadKnownUrls existingJobs stateUrls →
        u ∈ (Jobup.runTail today maxDays existingJobs stateUrls runUrls
          freshJobs).stateSeenUrls)) ∧
    ((Jobroom.runTail today maxDays existingJobs stateUrls runUrls freshJobs).stateSeenUrls =
        (Jobroom.runTail today none existingJobs stateUrls runUrls freshJobs).stateSeenUrls ∧
      (∀ u, u ∈ (Jobroom.runTail today maxDays existingJobs stateUrls runUrls
          freshJobs).stateSeenUrls ↔
        (u ∈ loadKnownUrls existingJobs stateUrls ∨ u ∈ runUrls ∨
          u ∈ jobUrls (Jobroom.merge_jobs_by_url existingJobs freshJobs))) ∧
      (∀ u, u ∈ loadKnownUrls existingJobs stateUrls →
        u ∈ (Jobroom.runTail today maxDays existingJobs stateUrls runUrls
          freshJobs).stateSeenUrls)) := by
  refine ⟨⟨rfl, fun u => ?_, fun u hu => ?_⟩, rfl, fun u => ?_, fun u hu => ?_⟩
  · simp [Jobup.runTail, List.mem_append, or_assoc]
  · simp only [Jobup.runTail, List.mem_append]
    exact Or.inl (Or.inl hu)
  · simp [Jobroom.runTail, List.mem_append, or_assoc]
  · simp only [Jobroom.runTail, List.mem_append]
    exact Or.inl (Or.inl hu)

/-- C4 witness at a concrete run. -/
theorem claim4_witness :
    "k" ∈ loadKnownUrls [{ url := some "k" }] ["s"] ∧
    "k" ∈ (Jobup.runTail 0 (some 30) [{ url := some "k" }] ["s"] ["l"]
      [{ url := some "f" }]).stateSeenUrls :=
  ⟨by decide,
   (claim4_seen_set_persistence 0 (some 30) [{ url := some "k" }] ["s"] ["l"]
      [{ url := some "f" }]).1.2.2 "k" (by decide)⟩

/-! ## Map basics -/

theorem mapGet_set_self (m : UrlMap) (k : String) (v : Job) :
    mapGet (mapSet m k v) k = some v := by
  induction m with
  | nil => simp [mapSet, mapGet]
  | cons p rest ih =>
    obtain ⟨k0, v0⟩ := p
    simp only [mapSet]
    by_cases h : k0 = k
    · rw [if_pos h]
      subst h
      simp [mapGet]
    · rw [if_neg h]
      simp only [mapGet]
      rw [if_neg h]
      exact ih

theorem mapGet_set_ne (m : UrlMap) {k k' : String} (v : Job) (h : k' ≠ k) :
    mapGet (mapSet m k v) k' = mapGet m k' := by
  have h' : ¬ k = k' := fun e => h e.symm
  induction m with
  | nil => simp [mapSet, mapGet, h']
  | cons p rest ih =>
    obtain ⟨k0, v0⟩ := p
    simp only [mapSet]
    by_cases h0 : k0 = k
    · rw [if_pos h0]
      subst h0
      simp [mapGet, h']
    · rw [if_neg h0]
      simp only [mapGet]
      by_cases h1 : k0 = k'
      · simp [h1]
      · simp [h1, ih]

theorem mem_mapSet {m : UrlMap} {k : String} {v : Job} {p : String × Job}
    (h : p ∈ mapSet m k v) : p = (k, v) ∨ p ∈ m := by
  induction m with
  | nil => simpa [mapSet] using h
  | cons q rest ih =>
    obtain ⟨k0, v0⟩ := q
    simp only [mapSet] at h
    split at h
    · rename_i h0
      rcases List.mem_cons.1 h with h1 | h1
      · exact Or.inl (by simp [h1, h0])
      · exact Or.inr (List.mem_cons_of_mem _ h1)
    · rcases List.mem_cons.1 h with h1 | h1
      · exact Or.inr (by simp [h1])
      · rcases ih h1 with h2 | h2
        · exact Or.inl h2
        · exact Or.inr (List.mem_cons_of_mem _ h2)

theorem mem_mapKeys_set {m : UrlMap} {k a : String} {v : Job} :
    a ∈ mapKeys (mapSet m k v) ↔ a ∈ mapKeys m ∨ a = k := by
  induction m with
  | nil => simp [mapSet, mapKeys]
  | cons q rest ih =>
    obtain ⟨k0, v0⟩ := q
    simp only [mapSet]
    by_cases h0 : k0 = k
    · rw [if_pos h0]
      subst h0
      simp only [mapKeys, List.map_cons, List.mem_cons]
      tauto
    · rw [if_neg h0]
      simp only [mapKeys, List.map_cons, List.mem_cons] at ih ⊢
      rw [ih]
      tauto

theorem mapKeys_set_nodup {m : UrlMap} {k : String} {v : Job}
    (h : (mapKeys m).Nodup) : (mapKeys (mapSet m k v)).Nodup := by
  induction m with
  | nil => simp [mapSet, mapKeys]
  | cons q rest ih =>
    obtain ⟨k0, v0⟩ := q
    simp only [mapKeys, List.map_cons, List.nodup_cons] at h
    simp only [mapSet]
    by_cases h0 : k0 = k
    · rw [if_pos h0]
      subst h0
      simp only [mapKeys, List.map_cons, List.nodup_cons]
      exact ⟨h.1, h.2⟩
    · rw [if_neg h0]
      simp only [mapKeys, List.map_cons, List.nodup_cons]
      refine ⟨fun hm => ?_, ih h.2⟩
      rcases mem_mapKeys_set.1 hm with h1 | h1
      · exact h.1 h1
      · exact h0 h1

theorem mapSet_append {m : UrlMap} {k : String} (v : Job)
    (h : k ∉ mapKeys m) : mapSet m k v = m ++ [(k, v)] := by
  induction m with
  | nil => simp [mapSet]
  | cons q rest ih =>
    obtain ⟨k0, v0⟩ := q
    simp only [mapKeys, List.map_cons, List.mem_cons] at h
    push_neg at h
    have h' : ¬ k0 = k := fun e => h.1 e.symm
    simp only [mapSet, if_neg h', List.cons_append]
    rw [ih h.2]

theorem mapGet_mem {m : UrlMap} {k : String} {v : Job}
    (h : mapGet m k = some v) : (k, v) ∈ m := by
  induction m with
  | nil => simp [mapGet] at h
  | cons q rest ih =>
    obtain ⟨k0, v0⟩ := q
    simp only [mapGet] at h
    split at h
    · rename_i h0
      obtain rfl : v0 = v := by injection h
      subst h0
      exact List.mem_cons_self _ _
    · exact List.mem_cons_of_mem _ (ih h)

theorem mapKeys_get {m : UrlMap} {k : String} (h : k ∈ mapKeys m) :
    ∃ v, mapGet m k = some v := by
  induction m with
  | nil => simp [mapKeys] at h
  | cons q rest ih =>
    obtain ⟨k0, v0⟩ := q
    by_cases h0 : k0 = k
    · exact ⟨v0, by simp [mapGet, h0]⟩
    · simp only [mapKeys, List.map_cons, List.mem_cons] at h
      rcases h with h | h
      · exact absurd h.symm h0
      · obtain ⟨v, hv⟩ := ih h
        exact ⟨v, by simp [mapGet, h0, hv]⟩

theorem mapGet_some_mem_keys {m : UrlMap} {k : String} {v : Job}
    (h : mapGet m k = some v) : k ∈ mapKeys m :=
  List.mem_map.2 ⟨(k, v), mapGet_mem h, rfl⟩

theorem mapGet_eq_of_mem_nodup {m : UrlMap} (hnd : (mapKeys m).Nodup)
    {k : String} {v : Job} (h : (k, v) ∈ m) : mapGet m k = some v := by
  induction m with
  | nil => simp at h
  | cons q rest ih =>
    obtain ⟨k0, v0⟩ := q
    simp only [mapKeys, List.map_cons, List.nodup_cons] at hnd
    rcases List.mem_cons.1 h with h1 | h1
    · cases h1
      simp [mapGet]
    · by_cases h0 : k0 = k
      · subst h0
        exact absurd (List.mem_map.2 ⟨(k0, v), h1, rfl⟩) hnd.1
      · simp only [mapGet, if_neg h0]
        exact ih hnd.2 h1

theorem mem_mapIds {m : UrlMap} {i : Int} :
    i ∈ mapIds m ↔ ∃ p ∈ m, p.2.id = some i := by
  simp only [mapIds, mapValues, List.mem_filterMap, List.mem_map]
  constructor
  · rintro ⟨j, ⟨p, hp, rfl⟩, hj⟩
    exact ⟨p, hp, hj⟩
  · rintro ⟨p, hp, hi⟩
    exact ⟨p.2, ⟨p, hp, rfl⟩, hi⟩

/-! ## Watermark -/

theorem watermarkFrom_ge_init (l : List Job) : ∀ a : Int, a ≤ watermarkFrom a l := by
  induction l with
  | nil => intro a; simp [watermarkFrom]
  | cons j js ih =>
    intro a
    rw [watermarkFrom]
    rcases hj : j.id with _ | i
    · exact ih a
    · dsimp only
      by_cases h : i > a
      · rw [if_pos h]
        exact le_trans (le_of_lt h) (ih i)
      · rw [if_neg h]
        exact ih a

theorem watermarkFrom_ge {l : List Job} {j : Job} {i : Int} (hj : j ∈ l)
    (hi : j.id = some i) : ∀ a : Int, i ≤ watermarkFrom a l := by
  induction l with
  | nil => simp at hj
  | cons x xs ih =>
    intro a
    rw [watermarkFrom]
    rcases List.mem_cons.1 hj with h1 | h1
    · subst h1
      rw [hi]
      dsimp only
      by_cases h : i > a
      · rw [if_pos h]
        exact watermarkFrom_ge_init xs i
      · rw [if_neg h]
        exact le_trans (not_lt.1 h) (watermarkFrom_ge_init xs a)
    · exact ih h1 _

theorem watermark_nonneg (l : List Job) : 0 ≤ watermark l :=
  watermarkFrom_ge_init l 0

theorem watermark_ge {l : List Job} {j : Job} {i : Int} (hj : j ∈ l)
    (hi : j.id = some i) : i ≤ watermark l :=
  watermarkFrom_ge hj hi 0

/-! ## Record-field helpers -/

theorem canonUrl_set_id (j : Job) (x : Option Int) :
    canonUrl { j with id := x } = canonUrl j := rfl

theorem applySource_id (d : Option String) (j : Job) :
    (applySource d j).id = j.id := by
  cases d with
  | none => rfl
  | some s =>
    by_cases h : j.source = none <;> simp [applySource, h]

theorem canonUrl_applySource (d : Option String) (j : Job) :
    canonUrl (applySource d j) = canonUrl j := by
  cases d with
  | none => rfl
  | some s =>
    by_cases h : j.source = none <;> simp [applySource, h, canonUrl]

theorem applySource_idem (d : Option String) (j : Job) :
    applySource d (applySource d j) = applySource d j := by
  cases d with
  | none => rfl
  | some s =>
    by_cases h : j.source = none <;> simp [applySource, h]

theorem applySource_set_id (d : Option String) (j : Job) (x : Option Int) :
    applySource d { j with id := x } = { applySource d j with id := x } := by
  cases d with
  | none => rfl
  | some s =>
    by_cases h : j.source = none <;> simp [applySource, h]

/-! ## Seeding -/

theorem seedJobs_spec (keep : Job → Bool) (cur : List Job) :
    ∀ (js : List Job) (m : UrlMap),
    (∀ j ∈ js, j ∈ cur) →
    MergeInv cur m (watermark cur) →
    (∀ p ∈ m, p.2 ∈ cur) →
    MergeInv cur (seedJobs keep js m) (watermark cur) ∧
      ∀ p ∈ seedJobs keep js m, p.2 ∈ cur := by
  intro js
  induction js with
  | nil => intro m _ hinv hval; exact ⟨hinv, hval⟩
  | cons j js ih =>
    intro m hjs hinv hval
    have hjcur : j ∈ cur := hjs j (List.mem_cons_self _ _)
    have hjs' : ∀ x ∈ js, x ∈ cur := fun x hx => hjs x (List.mem_cons_of_mem _ hx)
    rw [seedJobs]
    by_cases hu : canonUrl j = ""
    · rw [if_pos hu]
      exact ih m hjs' hinv hval
    · rw [if_neg hu]
      by_cases hk : keep j
      · rw [if_pos hk]
        refine ih _ hjs' ⟨mapKeys_set_nodup hinv.keysNodup, ?_, ?_, ?_, hinv.wGe, ?_, ?_⟩ ?_
        · intro p hp
          rcases mem_mapSet hp with rfl | hp'
          · rfl
          · exact hinv.canonKey p hp'
        · intro p hp
          rcases mem_mapSet hp with rfl | hp'
          · exact hu
          · exact hinv.keysNe p hp'
        · intro p hp i hi
          rcases mem_mapSet hp with rfl | hp'
          · exact watermark_ge hjcur hi
          · exact hinv.idsLe p hp' i hi
        · intro p hp i hi
          rcases mem_mapSet hp with rfl | hp'
          · exact Or.inl (List.mem_filterMap.2 ⟨j, hjcur, hi⟩)
          · exact hinv.idsOrigin p hp' i hi
        · intro p hp
          rcases mem_mapSet hp with rfl | hp'
          · exact Or.inl ⟨j, hjcur, rfl⟩
          · exact hinv.urlOrigin p hp'
        · intro p hp
          rcases mem_mapSet hp with rfl | hp'
          · exact hjcur
          · exact hval p hp'
      · rw [if_neg hk]
        exact ih m hjs' hinv hval

theorem mergeInv_nil (cur : List Job) : MergeInv cur [] (watermark cur) := by
  refine ⟨by simp [mapKeys], ?_, ?_, ?_, le_refl _, ?_, ?_⟩ <;> intro p hp <;> simp at hp

theorem seedJobs_init (keep : Job → Bool) (cur : List Job) :
    MergeInv cur (seedJobs keep cur []) (watermark cur) ∧
      ∀ p ∈ seedJobs keep cur [], p.2 ∈ cur :=
  seedJobs_spec keep cur cur [] (fun _ h => h) (mergeInv_nil cur) (by intro p hp; simp at hp)

theorem seedJobs_keys_mono (keep : Job → Bool) :
    ∀ (js : List Job) (m : UrlMap) (k : String),
      k ∈ mapKeys m → k ∈ mapKeys (seedJobs keep js m) := by
  intro js
  induction js with
  | nil => intro m k hk; exact hk
  | cons j js ih =>
    intro m k hk
    rw [seedJobs]
    by_cases hu : canonUrl j = ""
    · rw [if_pos hu]; exact ih m k hk
    · rw [if_neg hu]
      by_cases hkeep : keep j
      · rw [if_pos hkeep]
        exact ih _ k (mem_mapKeys_set.2 (Or.inl hk))
      · rw [if_neg hkeep]; exact ih m k hk

theorem seedJobs_covers (keep : Job → Bool) :
    ∀ (js : List Job) (m : UrlMap) (j : Job),
      j ∈ js → canonUrl j ≠ "" → keep j = true →
      canonUrl j ∈ mapKeys (seedJobs keep js m) := by
  intro js
  induction js with
  | nil => intro m j hj; simp at hj
  | cons x js ih =>
    intro m j hj hu hkeep
    rcases List.mem_cons.1 hj with rfl | hj'
    · rw [seedJobs, if_neg hu, if_pos hkeep]
      exact seedJobs_keys_mono keep js _ _ (mem_mapKeys_set.2 (Or.inr rfl))
    · rw [seedJobs]
      by_cases hux : canonUrl x = ""
      · rw [if_pos hux]; exact ih m j hj' hu hkeep
      · rw [if_neg hux]
        by_cases hkx : keep x
        · rw [if_pos hkx]; exact ih _ j hj' hu hkeep
        · rw [if_neg hkx]; exact ih m j hj' hu hkeep

/-! ## Overlaying -/

theorem mapSet_decomp {m : UrlMap} (hnd : (mapKeys m).Nodup) {k : String} {vOld : Job}
    (hget : mapGet m k = some vOld) (v : Job) :
    ∃ l1 l2, m = l1 ++ (k, vOld) :: l2 ∧ mapSet m k v = l1 ++ (k, v) :: l2 ∧
      k ∉ mapKeys l1 ∧ k ∉ mapKeys l2 := by
  induction m with
  | nil => simp [mapGet] at hget
  | cons q rest ih =>
    obtain ⟨k0, v0⟩ := q
    simp only [mapKeys, List.map_cons, List.nodup_cons] at hnd
    by_cases h0 : k0 = k
    · subst h0
      have hv : vOld = v0 := by
        simp only [mapGet] at hget
        simp only [if_true] at hget
        injection hget with hget
        exact hget.symm
      subst hv
      refine ⟨[], rest, by simp, ?_, by simp [mapKeys], hnd.1⟩
      simp [mapSet]
    · simp only [mapGet, if_neg h0] at hget
      obtain ⟨l1, l2, hm, hset, h1, h2⟩ := ih hnd.2 hget
      refine ⟨(k0, v0) :: l1, l2, by simp [hm], ?_, ?_, h2⟩
      · simp only [mapSet, if_neg h0, List.cons_append]
        rw [hset]
      · simp only [mapKeys, List.map_cons, List.mem_cons]
        push_neg
        exact ⟨fun e => h0 e.symm, h1⟩

theorem mapIds_append (l1 l2 : UrlMap) : mapIds (l1 ++ l2) = mapIds l1 ++ mapIds l2 := by
  simp [mapIds, mapValues, List.filterMap_append]

theorem overlayJobs_spec (keep : Job → Bool) (cur : List Job) :
    ∀ (js : List Job) (m : UrlMap) (w : Int),
    MergeInv cur m w →
    MergeInv cur (overlayJobs keep js m w).1 (overlayJobs keep js m w).2 ∧
      w ≤ (overlayJobs keep js m w).2 ∧
      (∀ k, k ∈ mapKeys m → k ∈ mapKeys (overlayJobs keep js m w).1) ∧
      ((mapIds m).Nodup → (mapIds (overlayJobs keep js m w).1).Nodup) := by
  intro js
  induction js with
  | nil =>
    intro m w hinv
    exact ⟨hinv, le_refl _, fun k hk => hk, fun h => h⟩
  | cons j js ih =>
    intro m w hinv
    rw [overlayJobs]
    by_cases hu : canonUrl j = ""
    · rw [if_pos hu]
      exact ih m w hinv
    · rw [if_neg hu]
      by_cases hk : keep j
      · rw [if_pos hk]
        rcases hg : (mapGet m (canonUrl j)).bind Job.id with _ | i
        · -- no integer id at this URL: assign w + 1
          have hinv' : MergeInv cur (mapSet m (canonUrl j) { j with id := some (w + 1) }) (w + 1) := by
            refine ⟨mapKeys_set_nodup hinv.keysNodup, ?_, ?_, ?_, ?_, ?_, ?_⟩
            · intro p hp
              rcases mem_mapSet hp with rfl | hp'
              · exact canonUrl_set_id j _
              · exact hinv.canonKey p hp'
            · intro p hp
              rcases mem_mapSet hp with rfl | hp'
              · exact hu
              · exact hinv.keysNe p hp'
            · intro p hp i hi
              rcases mem_mapSet hp with rfl | hp'
              · simp only at hi
                injection hi with hi
                omega
              · exact le_trans (hinv.idsLe p hp' i hi) (by omega)
            · exact le_trans hinv.wGe (by omega)
            · intro p hp i hi
              rcases mem_mapSet hp with rfl | hp'
              · simp only at hi
                injection hi with hi
                subst hi
                exact Or.inr (lt_of_le_of_lt hinv.wGe (by omega))
              · exact hinv.idsOrigin p hp' i hi
            · intro p hp
              rcases mem_mapSet hp with rfl | hp'
              · exact Or.inr ⟨w + 1, rfl, lt_of_le_of_lt hinv.wGe (by omega)⟩
              · exact hinv.urlOrigin p hp'
          obtain ⟨rinv, rle, rkeys, rnd⟩ := ih _ _ hinv'
          refine ⟨rinv, le_trans (by omega) rle, ?_, ?_⟩
          · intro k hkm
            exact rkeys k (mem_mapKeys_set.2 (Or.inl hkm))
          · intro hnd
            refine rnd ?_
            -- mapIds of the updated map stays duplicate-free: the new id w+1
            -- exceeds every stored id
            have hfresh : (w + 1) ∉ mapIds m := by
              intro hmem
              obtain ⟨p, hp, hpi⟩ := mem_mapIds.1 hmem
              have := hinv.idsLe p hp _ hpi
              omega
            by_cases hkey : canonUrl j ∈ mapKeys m
            · obtain ⟨ex, hget⟩ := mapKeys_get hkey
              have hexid : ex.id = none := by
                rw [hget] at hg
                simpa using hg
              obtain ⟨l1, l2, hm, hset, _, _⟩ := mapSet_decomp hinv.keysNodup hget _
              rw [hset, mapIds_append]
              rw [hm, mapIds_append] at hnd hfresh
              have h1 : mapIds ((canonUrl j, { j with id := some (w + 1) }) :: l2) =
                  (w + 1) :: mapIds l2 := by
                simp [mapIds, mapValues, List.filterMap_cons]
              have h2 : mapIds ((canonUrl j, ex) :: l2) = mapIds l2 := by
                simp [mapIds, mapValues, List.filterMap_cons, hexid]
              rw [h2] at hnd hfresh
              rw [h1, List.nodup_middle]
              exact List.nodup_cons.2 ⟨hfresh, hnd⟩
            · rw [mapSet_append _ hkey, mapIds_append]
              have h1 : mapIds [(canonUrl j, { j with id := some (w + 1) })] =
                  (w + 1) :: ([] : List Int) := by
                simp [mapIds, mapValues]
              rw [h1]
              have he : mapIds m ++ [w + 1] = mapIds m ++ (w + 1) :: [] := rfl
              rw [he, List.nodup_middle]
              simp only [List.append_nil]
              exact List.nodup_cons.2 ⟨hfresh, hnd⟩
        · -- integer id present: carry it
          obtain ⟨ex, hget, hexid⟩ := Option.bind_eq_some.1 hg
          have hinv' : MergeInv cur (mapSet m (canonUrl j) { j with id := some i }) w := by
            refine ⟨mapKeys_set_nodup hinv.keysNodup, ?_, ?_, ?_, hinv.wGe, ?_, ?_⟩
            · intro p hp
              rcases mem_mapSet hp with rfl | hp'
              · exact canonUrl_set_id j _
              · exact hinv.canonKey p hp'
            · intro p hp
              rcases mem_mapSet hp with rfl | hp'
              · exact hu
              · exact hinv.keysNe p hp'
            · intro p hp i' hi
              rcases mem_mapSet hp with rfl | hp'
              · simp only at hi
                injection hi with hi
                subst hi
                exact hinv.idsLe _ (mapGet_mem hget) _ hexid
              · exact hinv.idsLe p hp' i' hi
            · intro p hp i' hi
              rcases mem_mapSet hp with rfl | hp'
              · simp only at hi
                injection hi with hi
                subst hi
                exact hinv.idsOrigin _ (mapGet_mem hget) _ hexid
              · exact hinv.idsOrigin p hp' i' hi
            · intro p hp
              rcases mem_mapSet hp with rfl | hp'
              · rcases hinv.urlOrigin _ (mapGet_mem hget) with hl | ⟨i', hi', hgt⟩
                · exact Or.inl hl
                · refine Or.inr ⟨i, rfl, ?_⟩
                  rw [hexid] at hi'
                  injection hi' with hi'
                  subst hi'
                  exact hgt
              · exact hinv.urlOrigin p hp'
          obtain ⟨rinv, rle, rkeys, rnd⟩ := ih _ _ hinv'
          refine ⟨rinv, rle, ?_, ?_⟩
          · intro k hkm
            exact rkeys k (mem_mapKeys_set.2 (Or.inl hkm))
          · intro hnd
            refine rnd ?_
            obtain ⟨l1, l2, hm, hset, _, _⟩ := mapSet_decomp hinv.keysNodup hget _
            rw [hset, mapIds_append]
            rw [hm, mapIds_append] at hnd
            simp only [mapIds, mapValues, List.map_cons, List.filterMap_cons, hexid] at hnd
            simpa only [mapIds, mapValues, List.map_cons, List.filterMap_cons] using hnd
      · rw [if_neg hk]
        exact ih m w hinv

/-! ## Distinct ids in the seeded map -/

theorem nodup_filterMap_id_inj {l : List Job}
    (h : (l.filterMap Job.id).Nodup) :
    ∀ a ∈ l, ∀ b ∈ l, ∀ i : Int, a.id = some i → b.id = some i → a = b := by
  induction l with
  | nil => intro a ha; simp at ha
  | cons x xs ih =>
    intro a ha b hb i hai hbi
    rcases hx : x.id with _ | ix
    · rw [List.filterMap_cons, hx] at h
      rcases List.mem_cons.1 ha with rfl | ha'
      · rw [hai] at hx; exact absurd hx (by simp)
      · rcases List.mem_cons.1 hb with rfl | hb'
        · rw [hbi] at hx; exact absurd hx (by simp)
        · exact ih h a ha' b hb' i hai hbi
    · rw [List.filterMap_cons, hx] at h
      rw [List.nodup_cons] at h
      rcases List.mem_cons.1 ha with rfl | ha'
      · rcases List.mem_cons.1 hb with rfl | hb'
        · rfl
        · rw [hai] at hx
          injection hx with hx
          subst hx
          exact absurd (List.mem_filterMap.2 ⟨b, hb', hbi⟩) h.1
      · rcases List.mem_cons.1 hb with rfl | hb'
        · rw [hbi] at hx
          injection hx with hx
          subst hx
          exact absurd (List.mem_filterMap.2 ⟨a, ha', hai⟩) h.1
        · exact ih h.2 a ha' b hb' i hai hbi

theorem nodup_filterMap_of_pairwise {α β : Type} {l : List α} {g : α → Option β}
    (h : List.Pairwise (fun a b => ∀ i : β, g a = some i → g b ≠ some i) l) :
    (l.filterMap g).Nodup := by
  induction l with
  | nil => simp
  | cons x xs ih =>
    rw [List.pairwise_cons] at h
    rw [List.filterMap_cons]
    rcases hx : g x with _ | i
    · exact ih h.2
    · rw [List.nodup_cons]
      refine ⟨fun hmem => ?_, ih h.2⟩
      obtain ⟨b, hb, hbi⟩ := List.mem_filterMap.1 hmem
      exact h.1 b hb i hx hbi

theorem seed_idsNodup {cur : List Job} {m : UrlMap}
    (hnd : (cur.filterMap Job.id).Nodup)
    (hkn : (mapKeys m).Nodup)
    (hck : ∀ p ∈ m, canonUrl p.2 = p.1)
    (hvals : ∀ p ∈ m, p.2 ∈ cur) : (mapIds m).Nodup := by
  have hids : mapIds m = m.filterMap (fun p => p.2.id) := by
    simp [mapIds, mapValues, List.filterMap_map]
    rfl
  rw [hids]
  apply nodup_filterMap_of_pairwise
  have hpk : List.Pairwise (fun p q : String × Job => p.1 ≠ q.1) m := by
    have h := hkn
    rw [mapKeys, List.Nodup, List.pairwise_map] at h
    exact h
  refine List.Pairwise.imp_of_mem ?_ hpk
  intro p q hp hq hne i hpi hqi
  have hpq : p.2 = q.2 :=
    nodup_filterMap_id_inj hnd p.2 (hvals p hp) q.2 (hvals q hq) i hpi hqi
  apply hne
  rw [← hck p hp, ← hck q hq, hpq]

/-! ## Backfilling -/

theorem backfillJobs_pointwise (d : Option String) :
    ∀ (vs : List Job) (w : Int),
    List.Forall₂ (fun v o => canonUrl o = canonUrl v ∧ (∃ i : Int, o.id = some i) ∧
        applySource d o = o ∧ (v.id ≠ none → o = applySource d v))
      vs (backfillJobs d vs w).1 ∧
    w ≤ (backfillJobs d vs w).2 := by
  intro vs
  induction vs with
  | nil =>
    intro w
    exact ⟨by simp [backfillJobs], by simp [backfillJobs]⟩
  | cons v vs ih =>
    intro w
    rcases hid : (applySource d v).id with _ | i
    · obtain ⟨hf, hw⟩ := ih (w + 1)
      rcases he : backfillJobs d vs (w + 1) with ⟨rest, w2⟩
      rw [he] at hf hw
      have heq : backfillJobs d (v :: vs) w =
          ({ applySource d v with id := some (w + 1) } :: rest, w2) := by
        simp only [backfillJobs, hid, he]
      rw [heq]
      refine ⟨List.Forall₂.cons ⟨?_, ⟨w + 1, rfl⟩, ?_, ?_⟩ hf, by omega⟩
      · rw [canonUrl_set_id, canonUrl_applySource]
      · rw [applySource_set_id, applySource_idem]
      · intro hne
        rw [applySource_id] at hid
        exact absurd hid hne
    · obtain ⟨hf, hw⟩ := ih w
      rcases he : backfillJobs d vs w with ⟨rest, w2⟩
      rw [he] at hf hw
      have heq : backfillJobs d (v :: vs) w = (applySource d v :: rest, w2) := by
        simp only [backfillJobs, hid, he]
      rw [heq]
      refine ⟨List.Forall₂.cons ⟨?_, ⟨i, hid⟩, applySource_idem d v, fun _ => rfl⟩ hf, hw⟩
      rw [canonUrl_applySource]

theorem filterMap_id_bound {vs : List Job} {w : Int}
    (hb : ∀ v ∈ vs, ∀ i : Int, v.id = some i → i ≤ w) :
    ∀ i ∈ vs.filterMap Job.id, i ≤ w := by
  intro i hi
  obtain ⟨v, hv, hvi⟩ := List.mem_filterMap.1 hi
  exact hb v hv i hvi

theorem backfillJobs_ids (d : Option String) :
    ∀ (vs : List Job) (w : Int),
    (∀ v ∈ vs, ∀ i : Int, v.id = some i → i ≤ w) →
    (((vs.filterMap Job.id).Nodup → ((backfillJobs d vs w).1.filterMap Job.id).Nodup) ∧
      (∀ i ∈ (backfillJobs d vs w).1.filterMap Job.id, i ∈ vs.filterMap Job.id ∨ w < i)) := by
  intro vs
  induction vs with
  | nil =>
    intro w _
    constructor
    · intro _; simp [backfillJobs]
    · intro i hi; simp [backfillJobs] at hi
  | cons v vs ih =>
    intro w hb
    have hbt : ∀ x ∈ vs, ∀ i : Int, x.id = some i → i ≤ w :=
      fun x hx => hb x (List.mem_cons_of_mem _ hx)
    rcases hid : (applySource d v).id with _ | i
    · have hvid : v.id = none := by rw [← applySource_id d v, hid]
      have hbt' : ∀ x ∈ vs, ∀ i : Int, x.id = some i → i ≤ w + 1 :=
        fun x hx i hi => le_trans (hbt x hx i hi) (by omega)
      obtain ⟨hnd1, horig1⟩ := ih (w + 1) hbt'
      rcases he : backfillJobs d vs (w + 1) with ⟨rest, w2⟩
      rw [he] at hnd1 horig1
      have heq : backfillJobs d (v :: vs) w =
          ({ applySource d v with id := some (w + 1) } :: rest, w2) := by
        simp only [backfillJobs, hid, he]
      rw [heq]
      simp only [List.filterMap_cons, hvid]
      constructor
      · intro hnd
        rw [List.nodup_cons]
        refine ⟨fun hmem => ?_, hnd1 hnd⟩
        rcases horig1 _ hmem with h1 | h1
        · have := filterMap_id_bound hbt _ h1
          omega
        · omega
      · intro i hi
        rcases List.mem_cons.1 hi with rfl | hi'
        · exact Or.inr (by omega)
        · rcases horig1 _ hi' with h1 | h1
          · exact Or.inl h1
          · exact Or.inr (by omega)
    · have hvid : v.id = some i := by rw [← applySource_id d v, hid]
      have hhead : i ≤ w := hb v (List.mem_cons_self _ _) i hvid
      obtain ⟨hnd1, horig1⟩ := ih w hbt
      rcases he : backfillJobs d vs w with ⟨rest, w2⟩
      rw [he] at hnd1 horig1
      have heq : backfillJobs d (v :: vs) w = (applySource d v :: rest, w2) := by
        simp only [backfillJobs, hid, he]
      rw [heq]
      simp only [List.filterMap_cons, hvid, hid]
      constructor
      · intro hnd
        rw [List.nodup_cons] at hnd ⊢
        refine ⟨fun hmem => ?_, hnd1 hnd.2⟩
        rcases horig1 _ hmem with h1 | h1
        · exact hnd.1 h1
        · omega
      · intro i' hi'
        rcases List.mem_cons.1 hi' with rfl | hi2
        · exact Or.inl (List.mem_cons_self _ _)
        · rcases horig1 _ hi2 with h1 | h1
          · exact Or.inl (List.mem_cons_of_mem _ h1)
          · exact Or.inr h1

/-! ## Sorting -/

theorem insertDesc_perm (j : Job) (l : List Job) : List.Perm (insertDesc j l) (j :: l) := by
  induction l with
  | nil => simp [insertDesc]
  | cons x xs ih =>
    rw [insertDesc]
    by_cases h : sortKey x < sortKey j
    · rw [if_pos h]
    · rw [if_neg h]
      exact (ih.cons x).trans (List.Perm.swap j x xs)

theorem mem_insertDesc {j x : Job} {l : List Job} (h : x ∈ insertDesc j l) :
    x = j ∨ x ∈ l := by
  have := (insertDesc_perm j l).mem_iff.1 h
  simpa using this

theorem foldl_insertDesc_perm :
    ∀ (l acc : List Job), List.Perm (l.foldl (fun a j => insertDesc j a) acc) (acc ++ l) := by
  intro l
  induction l with
  | nil => intro acc; simp
  | cons j js ih =>
    intro acc
    rw [List.foldl_cons]
    exact (ih _).trans (((insertDesc_perm j acc).append_right js).trans List.perm_middle.symm)

theorem pySortDesc_perm (l : List Job) : List.Perm (pySortDesc l) l := by
  have := foldl_insertDesc_perm l []
  simpa [pySortDesc] using this

theorem insertDesc_pairwise {j : Job} {l : List Job} (h : descByKey l) :
    descByKey (insertDesc j l) := by
  induction l with
  | nil => simp [insertDesc, descByKey]
  | cons x xs ih =>
    rw [descByKey, List.pairwise_cons] at h
    rw [insertDesc]
    by_cases hx : sortKey x < sortKey j
    · rw [if_pos hx]
      rw [descByKey, List.pairwise_cons]
      refine ⟨?_, List.Pairwise.cons h.1 h.2⟩
      intro y hy
      rcases List.mem_cons.1 hy with rfl | hy'
      · exact le_of_lt hx
      · exact le_trans (h.1 y hy') (le_of_lt hx)
    · rw [if_neg hx]
      rw [descByKey, List.pairwise_cons]
      refine ⟨?_, ih h.2⟩
      intro y hy
      rcases mem_insertDesc hy with rfl | hy'
      · exact not_lt.1 hx
      · exact h.1 y hy'

theorem pySortDesc_desc (l : List Job) : descByKey (pySortDesc l) := by
  suffices h : ∀ (js acc : List Job), descByKey acc →
      descByKey (js.foldl (fun a j => insertDesc j a) acc) by
    exact h l [] (by simp [descByKey])
  intro js
  induction js with
  | nil => intro acc h; exact h
  | cons j js ih =>
    intro acc h
    rw [List.foldl_cons]
    exact ih _ (insertDesc_pairwise h)

theorem insertDesc_append {j : Job} :
    ∀ {l : List Job}, (∀ x ∈ l, sortKey j ≤ sortKey x) → insertDesc j l = l ++ [j] := by
  intro l
  induction l with
  | nil => intro _; simp [insertDesc]
  | cons x xs ih =>
    intro h
    rw [insertDesc, if_neg (not_lt.2 (h x (List.mem_cons_self _ _)))]
    rw [ih (fun y hy => h y (List.mem_cons_of_mem _ hy))]
    simp

theorem pySortDesc_fix {l : List Job} (h : descByKey l) : pySortDesc l = l := by
  suffices haux : ∀ (js acc : List Job), descByKey (acc ++ js) →
      js.foldl (fun a j => insertDesc j a) acc = acc ++ js by
    have := haux l [] (by simpa using h)
    simpa [pySortDesc] using this
  intro js
  induction js with
  | nil => intro acc _; simp
  | cons j js ih =>
    intro acc hp
    rw [List.foldl_cons]
    have hins : insertDesc j acc = acc ++ [j] := by
      apply insertDesc_append
      intro x hx
      rw [descByKey, List.pairwise_append] at hp
      exact hp.2.2 x hx j (List.mem_cons_self _ _)
    rw [hins]
    have hp' : descByKey ((acc ++ [j]) ++ js) := by
      rw [List.append_assoc]
      simpa using hp
    rw [ih _ hp']
    simp

/-! ## Facts about the assembled merge -/

theorem forall₂_mem_left {α β : Type} {R : α → β → Prop} :
    ∀ {l : List α} {l' : List β}, List.Forall₂ R l l' → ∀ {a}, a ∈ l → ∃ b ∈ l', R a b := by
  intro l l' h
  induction h with
  | nil => intro a ha; simp at ha
  | cons hr ht ih =>
    intro a ha
    rcases List.mem_cons.1 ha with rfl | ha'
    · exact ⟨_, List.mem_cons_self _ _, hr⟩
    · obtain ⟨b, hb, hrb⟩ := ih ha'
      exact ⟨b, List.mem_cons_of_mem _ hb, hrb⟩

theorem forall₂_mem_right {α β : Type} {R : α → β → Prop} :
    ∀ {l : List α} {l' : List β}, List.Forall₂ R l l' → ∀ {b}, b ∈ l' → ∃ a ∈ l, R a b := by
  intro l l' h
  induction h with
  | nil => intro b hb; simp at hb
  | cons hr ht ih =>
    intro b hb
    rcases List.mem_cons.1 hb with rfl | hb'
    · exact ⟨_, List.mem_cons_self _ _, hr⟩
    · obtain ⟨a, ha, hra⟩ := ih hb'
      exact ⟨a, List.mem_cons_of_mem _ ha, hra⟩

theorem forall₂_map_eq {α β γ : Type} {R : α → β → Prop} {f : α → γ} {g : β → γ}
    (hfg : ∀ a b, R a b → g b = f a) :
    ∀ {l : List α} {l' : List β}, List.Forall₂ R l l' → l'.map g = l.map f := by
  intro l l' h
  induction h with
  | nil => rfl
  | cons hr _ ih => simp [hfg _ _ hr, ih]

theorem mapValues_canon {m : UrlMap} (hck : ∀ p ∈ m, canonUrl p.2 = p.1) :
    (mapValues m).map canonUrl = mapKeys m := by
  induction m with
  | nil => rfl
  | cons p rest ih =>
    simp only [mapValues, mapKeys, List.map_cons]
    rw [hck p (List.mem_cons_self _ _)]
    have := ih (fun q hq => hck q (List.mem_cons_of_mem _ hq))
    simp only [mapValues, mapKeys] at this
    rw [this]

theorem mem_mapValues {m : UrlMap} {v : Job} :
    v ∈ mapValues m ↔ ∃ p ∈ m, p.2 = v := by
  simp [mapValues, List.mem_map]

theorem mergeState_inv (d : Option String) (keep : Job → Bool) (c f : List Job) :
    MergeInv c (mergeState d keep c f).1 (mergeState d keep c f).2 ∧
      ((c.filterMap Job.id).Nodup → (mapIds (mergeState d keep c f).1).Nodup) ∧
      (∀ j ∈ c, canonUrl j ≠ "" → keep j = true →
        canonUrl j ∈ mapKeys (mergeState d keep c f).1) := by
  obtain ⟨hsinv, hsval⟩ := seedJobs_init keep c
  obtain ⟨rinv, _, rkeys, rnd⟩ := overlayJobs_spec keep c f _ _ hsinv
  refine ⟨rinv, ?_, ?_⟩
  · intro hnd
    exact rnd (seed_idsNodup hnd hsinv.keysNodup hsinv.canonKey hsval)
  · intro j hj hu hk
    exact rkeys _ (seedJobs_covers keep c [] j hj hu hk)

theorem mergeGen_eq (d : Option String) (keep : Job → Bool) (c f : List Job) :
    mergeGen d keep c f =
      pySortDesc (backfillJobs d (mapValues (mergeState d keep c f).1)
        (mergeState d keep c f).2).1 := by
  rcases hms : mergeState d keep c f with ⟨m1, w1⟩
  rcases hbf : backfillJobs d (mapValues m1) w1 with ⟨out, w2⟩
  simp only [mergeGen, hms, hbf]

theorem mergeGen_url_nodup (d : Option String) (keep : Job → Bool) (c f : List Job) :
    ((mergeGen d keep c f).map canonUrl).Nodup := by
  obtain ⟨hinv, _, _⟩ := mergeState_inv d keep c f
  obtain ⟨hf, _⟩ := backfillJobs_pointwise d (mapValues (mergeState d keep c f).1)
    (mergeState d keep c f).2
  have hmap : (backfillJobs d (mapValues (mergeState d keep c f).1)
      (mergeState d keep c f).2).1.map canonUrl =
      (mapValues (mergeState d keep c f).1).map canonUrl :=
    forall₂_map_eq (fun v o hr => hr.1) hf
  rw [mapValues_canon hinv.canonKey] at hmap
  rw [mergeGen_eq]
  have hperm := (pySortDesc_perm (backfillJobs d (mapValues (mergeState d keep c f).1)
    (mergeState d keep c f).2).1).map canonUrl
  rw [hperm.nodup_iff, hmap]
  exact hinv.keysNodup

theorem mergeGen_url_nonempty (d : Option String) (keep : Job → Bool) (c f : List Job) :
    ∀ r ∈ mergeGen d keep c f, canonUrl r ≠ "" := by
  intro r hr
  obtain ⟨hinv, _, _⟩ := mergeState_inv d keep c f
  rw [mergeGen_eq] at hr
  have hr' := (pySortDesc_perm _).mem_iff.1 hr
  obtain ⟨hf, _⟩ := backfillJobs_pointwise d (mapValues (mergeState d keep c f).1)
    (mergeState d keep c f).2
  obtain ⟨v, hv, hrel⟩ := forall₂_mem_right hf hr'
  obtain ⟨p, hp, rfl⟩ := mem_mapValues.1 hv
  rw [hrel.1, hinv.canonKey p hp]
  exact hinv.keysNe p hp

theorem mergeGen_ids_some (d : Option String) (keep : Job → Bool) (c f : List Job) :
    ∀ r ∈ mergeGen d keep c f, ∃ i : Int, r.id = some i := by
  intro r hr
  rw [mergeGen_eq] at hr
  have hr' := (pySortDesc_perm _).mem_iff.1 hr
  obtain ⟨hf, _⟩ := backfillJobs_pointwise d (mapValues (mergeState d keep c f).1)
    (mergeState d keep c f).2
  obtain ⟨v, _, hrel⟩ := forall₂_mem_right hf hr'
  exact hrel.2.1

theorem mergeGen_source_applied (d : Option String) (keep : Job → Bool) (c f : List Job) :
    ∀ r ∈ mergeGen d keep c f, applySource d r = r := by
  intro r hr
  rw [mergeGen_eq] at hr
  have hr' := (pySortDesc_perm _).mem_iff.1 hr
  obtain ⟨hf, _⟩ := backfillJobs_pointwise d (mapValues (mergeState d keep c f).1)
    (mergeState d keep c f).2
  obtain ⟨v, _, hrel⟩ := forall₂_mem_right hf hr'
  exact hrel.2.2.1

theorem mergeGen_desc (d : Option String) (keep : Job → Bool) (c f : List Job) :
    descByKey (mergeGen d keep c f) := by
  rw [mergeGen_eq]
  exact pySortDesc_desc _

theorem mergeGen_ids_distinct_pos (d : Option String) (keep : Job → Bool) (c f : List Job)
    (hnd : (c.filterMap Job.id).Nodup) (hpos : ∀ i ∈ c.filterMap Job.id, 0 < i) :
    ((mergeGen d keep c f).filterMap Job.id).Nodup ∧
      ∀ r ∈ mergeGen d keep c f, ∃ i : Int, r.id = some i ∧ 0 < i := by
  obtain ⟨hinv, hndm, _⟩ := mergeState_inv d keep c f
  have hbound : ∀ v ∈ mapValues (mergeState d keep c f).1, ∀ i : Int,
      v.id = some i → i ≤ (mergeState d keep c f).2 := by
    intro v hv i hi
    obtain ⟨p, hp, rfl⟩ := mem_mapValues.1 hv
    exact hinv.idsLe p hp i hi
  obtain ⟨hnd2, horig⟩ := backfillJobs_ids d (mapValues (mergeState d keep c f).1)
    (mergeState d keep c f).2 hbound
  have hperm := pySortDesc_perm (backfillJobs d (mapValues (mergeState d keep c f).1)
    (mergeState d keep c f).2).1
  constructor
  · rw [mergeGen_eq]
    rw [(hperm.filterMap Job.id).nodup_iff]
    exact hnd2 (hndm hnd)
  · intro r hr
    obtain ⟨i, hi⟩ := mergeGen_ids_some d keep c f r hr
    refine ⟨i, hi, ?_⟩
    rw [mergeGen_eq] at hr
    have hr' := hperm.mem_iff.1 hr
    have hmem : i ∈ (backfillJobs d (mapValues (mergeState d keep c f).1)
        (mergeState d keep c f).2).1.filterMap Job.id :=
      List.mem_filterMap.2 ⟨r, hr', hi⟩
    rcases horig i hmem with h1 | h1
    · rcases mem_mapIds.1 h1 with ⟨p, hp, hpi⟩
      rcases hinv.idsOrigin p hp i hpi with h2 | h2
      · exact hpos i h2
      · have := watermark_nonneg c
        omega
    · have h2 := hinv.wGe
      have := watermark_nonneg c
      omega

theorem mergeGen_preserves_current (d : Option String) (keep : Job → Bool) (c f : List Job)
    (j : Job) (hj : j ∈ c) (hu : canonUrl j ≠ "") (hk : keep j = true) :
    ∃ r ∈ mergeGen d keep c f, canonUrl r = canonUrl j := by
  obtain ⟨hinv, _, hcov⟩ := mergeState_inv d keep c f
  have hkey := hcov j hj hu hk
  obtain ⟨hf, _⟩ := backfillJobs_pointwise d (mapValues (mergeState d keep c f).1)
    (mergeState d keep c f).2
  have hmap : (backfillJobs d (mapValues (mergeState d keep c f).1)
      (mergeState d keep c f).2).1.map canonUrl =
      (mapValues (mergeState d keep c f).1).map canonUrl :=
    forall₂_map_eq (fun v o hr => hr.1) hf
  rw [mapValues_canon hinv.canonKey] at hmap
  have : canonUrl j ∈ (backfillJobs d (mapValues (mergeState d keep c f).1)
      (mergeState d keep c f).2).1.map canonUrl := by
    rw [hmap]; exact hkey
  obtain ⟨o, ho, hco⟩ := List.mem_map.1 this
  refine ⟨o, ?_, hco⟩
  rw [mergeGen_eq]
  exact (pySortDesc_perm _).mem_iff.2 ho

theorem mergeGen_new_url_id (d : Option String) (keep : Job → Bool) (c f : List Job) :
    ∀ r ∈ mergeGen d keep c f, canonUrl r ∉ c.map canonUrl →
      ∃ i : Int, r.id = some i ∧ watermark c < i := by
  intro r hr hnew
  obtain ⟨hinv, _, _⟩ := mergeState_inv d keep c f
  rw [mergeGen_eq] at hr
  have hr' := (pySortDesc_perm _).mem_iff.1 hr
  obtain ⟨hf, _⟩ := backfillJobs_pointwise d (mapValues (mergeState d keep c f).1)
    (mergeState d keep c f).2
  obtain ⟨v, hv, hrel⟩ := forall₂_mem_right hf hr'
  obtain ⟨p, hp, rfl⟩ := mem_mapValues.1 hv
  rcases hinv.urlOrigin p hp with ⟨j', hj', hcan⟩ | ⟨i, hvi, hgt⟩
  · exfalso
    apply hnew
    rw [hrel.1, hinv.canonKey p hp, ← hcan]
    exact List.mem_map.2 ⟨j', hj', rfl⟩
  · refine ⟨i, ?_, hgt⟩
    have hrv : r = applySource d p.2 := hrel.2.2.2 (by rw [hvi]; simp)
    rw [hrv, applySource_id]
    exact hvi

/-! ## Claim C1 -/

/-- C1 counterexample: two `current` records that already carry the same
integer id survive the merge unchanged — the output has two records with
id 1, so output ids are not pairwise distinct for arbitrary inputs. -/
theorem claim1_counterexample :
    Jobup.merge_jobs_by_url
        [{ url := some "a", id := some 1 }, { url := some "b", id := some 1 }] [] =
      [{ url := some "a", id := some 1 }, { url := some "b", id := some 1 }] ∧
    ¬ ((Jobup.merge_jobs_by_url
        [{ url := some "a", id := some 1 }, { url := some "b", id := some 1 }]
        []).filterMap Job.id).Nodup := by
  constructor
  · decide
  · decide

/-- C1 amended: the output of `merge_jobs_by_url` (jobup and ge) always has
at most one record per canonical URL; and provided the integer ids already
present in `current` are pairwise distinct and positive, every output
record carries a positive integer id distinct from every other output
record's id. -/
theorem claim1_amended (current fresh : List Job) :
    (((Jobup.merge_jobs_by_url current fresh).map canonUrl).Nodup ∧
      ((Ge.merge_jobs_by_url current fresh).map canonUrl).Nodup) ∧
    ((current.filterMap Job.id).Nodup →
      (∀ i ∈ current.filterMap Job.id, 0 < i) →
      (((Jobup.merge_jobs_by_url current fresh).filterMap Job.id).Nodup ∧
        ∀ r ∈ Jobup.merge_jobs_by_url current fresh, ∃ i : Int, r.id = some i ∧ 0 < i) ∧
      (((Ge.merge_jobs_by_url current fresh).filterMap Job.id).Nodup ∧
        ∀ r ∈ Ge.merge_jobs_by_url current fresh, ∃ i : Int, r.id = some i ∧ 0 < i)) := by
  refine ⟨⟨mergeGen_url_nodup _ _ _ _, mergeGen_url_nodup _ _ _ _⟩, fun hnd hpos => ?_⟩
  exact ⟨mergeGen_ids_distinct_pos _ _ _ _ hnd hpos,
         mergeGen_ids_distinct_pos _ _ _ _ hnd hpos⟩

/-- C1 witness: the amended theorem at a concrete well-formed dataset. -/
theorem claim1_amended_witness :
    ((Jobup.merge_jobs_by_url [{ url := some "a", id := some 2 }]
        [{ url := some "b" }]).filterMap Job.id).Nodup ∧
    ∀ r ∈ Jobup.merge_jobs_by_url [{ url := some "a", id := some 2 }]
        [{ url := some "b" }], ∃ i : Int, r.id = some i ∧ 0 < i :=
  ((claim1_amended [{ url := some "a", id := some 2 }] [{ url := some "b" }]).2
    (by decide) (by decide)).1

/-! ## Claim C3 -/

/-- C3 counterexample: talent's merge with its default `filter_lang=True`
drops a `current` record whose title/description fail the language filter —
its URL `"a"` (a non-empty string) is absent from the output; and jobup's
merge drops a record whose url is whitespace-only (also a non-empty string). -/
theorem claim3_counterexample :
    Talent.merge_jobs_by_url [{ url := some "a" }] [] = [] ∧
    Jobup.merge_jobs_by_url [{ url := some " ", id := some 3 }] [] = [] := by
  constructor
  · decide
  · decide

/-- C3 amended: every `current` record whose url strips to a non-empty
string keeps its canonical URL in the merge output of jobup, jobroom and
ge; for talent's merge with `filter_lang=True` the same holds provided the
record passes `_is_allowed_language`. -/
theorem claim3_amended (current fresh : List Job) (j : Job) (hj : j ∈ current)
    (hu : canonUrl j ≠ "") :
    (∃ r ∈ Jobup.merge_jobs_by_url current fresh, canonUrl r = canonUrl j) ∧
    (∃ r ∈ Jobroom.merge_jobs_by_url current fresh, canonUrl r = canonUrl j) ∧
    (∃ r ∈ Ge.merge_jobs_by_url current fresh, canonUrl r = canonUrl j) ∧
    (Talent._is_allowed_language j.title j.description = true →
      ∃ r ∈ Talent.merge_jobs_by_url current fresh, canonUrl r = canonUrl j) := by
  refine ⟨mergeGen_preserves_current _ _ _ _ j hj hu rfl,
          mergeGen_preserves_current _ _ _ _ j hj hu rfl,
          mergeGen_preserves_current _ _ _ _ j hj hu rfl, fun hall => ?_⟩
  exact mergeGen_preserves_current _ _ _ _ j hj hu (by simp [hall])

/-- C3 witness: the amended theorem at a concrete record that passes both
the url and language conditions. -/
theorem claim3_amended_witness :
    ∃ r ∈ Jobup.merge_jobs_by_url
        [{ url := some "a", title := some "poste avec equipe" }] [{ url := some "b" }],
      canonUrl r = canonUrl { url := some "a", title := some "poste avec equipe" } :=
  (claim3_amended [{ url := some "a", title := some "poste avec equipe" }]
    [{ url := some "b" }] { url := some "a", title := some "poste avec equipe" }
    (by decide) (by decide)).1

/-! ## Claim C10 -/

/-- C10: `merge_jobs_by_url` (jobup and jobroom) silently drops records
whose url is missing, `None` or whitespace-only: no entry of the URL map
and no output record has an empty canonical URL; yet an integer id carried
by such a record still raises the starting max-id watermark, so any output
record at a URL not present in `current` gets an id strictly greater than
that watermark. -/
theorem claim10_urlless_records (current fresh : List Job) :
    ((∀ p ∈ (mergeState none (fun _ => true) current fresh).1, canonUrl p.2 ≠ "") ∧
      (∀ r ∈ Jobup.merge_jobs_by_url current fresh, canonUrl r ≠ "") ∧
      ∀ r ∈ Jobup.merge_jobs_by_url current fresh,
        canonUrl r ∉ current.map canonUrl →
          ∃ i : Int, r.id = some i ∧ watermark current < i) ∧
    ((∀ p ∈ (mergeState (some "jobroom") (fun _ => true) current fresh).1,
        canonUrl p.2 ≠ "") ∧
      (∀ r ∈ Jobroom.merge_jobs_by_url current fresh, canonUrl r ≠ "") ∧
      ∀ r ∈ Jobroom.merge_jobs_by_url current fresh,
        canonUrl r ∉ current.map canonUrl →
          ∃ i : Int, r.id = some i ∧ watermark current < i) := by
  constructor
  · obtain ⟨hinv, _, _⟩ := mergeState_inv none (fun _ => true) current fresh
    exact ⟨fun p hp => (hinv.canonKey p hp) ▸ hinv.keysNe p hp,
           mergeGen_url_nonempty _ _ _ _, mergeGen_new_url_id _ _ _ _⟩
  · obtain ⟨hinv, _, _⟩ := mergeState_inv (some "jobroom") (fun _ => true) current fresh
    exact ⟨fun p hp => (hinv.canonKey p hp) ▸ hinv.keysNe p hp,
           mergeGen_url_nonempty _ _ _ _, mergeGen_new_url_id _ _ _ _⟩

/-- C10 witness: a url-less record with id 100 raises the watermark; the
fresh record at a new URL gets id 101 > 100. -/
theorem claim10_witness :
    ∃ i : Int, ({ url := some "a", id := some 101 } : Job).id = some i ∧
      watermark [{ url := none, id := some 100 }] < i :=
  (claim10_urlless_records [{ url := none, id := some 100 }]
    [{ url := some "a" }]).1.2.2 { url := some "a", id := some 101 }
    (by decide) (by decide)

/-! ## Idempotence machinery -/

theorem mapKeys_toAList (l : List Job) : mapKeys (toAList l) = l.map canonUrl := by
  simp only [mapKeys, toAList, List.map_map]
  rfl

theorem mapValues_toAList (l : List Job) : mapValues (toAList l) = l := by
  simp only [mapValues, toAList, List.map_map]
  have h : (Prod.snd ∘ fun j : Job => (canonUrl j, j)) = id := rfl
  rw [h, List.map_id]

theorem toAList_canonKey (l : List Job) : ∀ p ∈ toAList l, canonUrl p.2 = p.1 := by
  intro p hp
  obtain ⟨j, _, rfl⟩ := List.mem_map.1 hp
  rfl

theorem toAList_get_of_mem {l : List Job} (hnd : (l.map canonUrl).Nodup)
    {o : Job} (ho : o ∈ l) : mapGet (toAList l) (canonUrl o) = some o := by
  induction l with
  | nil => simp at ho
  | cons x xs ih =>
    simp only [List.map_cons, List.nodup_cons] at hnd
    rcases List.mem_cons.1 ho with rfl | ho'
    · simp [toAList, mapGet]
    · simp only [toAList, List.map_cons, mapGet]
      by_cases hx : canonUrl x = canonUrl o
      · exact absurd (hx ▸ List.mem_map.2 ⟨o, ho', rfl⟩) hnd.1
      · rw [if_neg hx]
        exact ih hnd.2 ho'

theorem seedJobs_const_toA :
    ∀ (l : List Job) (m0 : UrlMap),
    (∀ j ∈ l, canonUrl j ≠ "") → ((l.map canonUrl).Nodup) →
    (∀ j ∈ l, canonUrl j ∉ mapKeys m0) →
    seedJobs (fun _ => true) l m0 = m0 ++ toAList l := by
  intro l
  induction l with
  | nil => intro m0 _ _ _; simp [seedJobs, toAList]
  | cons j js ih =>
    intro m0 hne hnd hdisj
    rw [seedJobs, if_neg (hne j (List.mem_cons_self _ _)), if_pos rfl]
    rw [mapSet_append _ (hdisj j (List.mem_cons_self _ _))]
    simp only [List.map_cons, List.nodup_cons] at hnd
    rw [ih (m0 ++ [(canonUrl j, j)])
      (fun x hx => hne x (List.mem_cons_of_mem _ hx)) hnd.2 ?_]
    · simp [toAList]
    · intro x hx
      simp only [mapKeys, List.map_append, List.mem_append, List.map_cons, List.map_nil,
        List.mem_cons, List.not_mem_nil]
      push_neg
      refine ⟨?_, fun e => hnd.1 (e ▸ List.mem_map.2 ⟨x, hx, rfl⟩), fun h => h⟩
      intro hmem
      exact hdisj x (List.mem_cons_of_mem _ hx) hmem

theorem lastAt_canon {u : String} : ∀ {f : List Job} {jl : Job},
    lastAt u f = some jl → canonUrl jl = u := by
  intro f
  induction f with
  | nil => intro jl h; simp [lastAt] at h
  | cons j js ih =>
    intro jl h
    rw [lastAt] at h
    rcases hjs : lastAt u js with _ | x
    · rw [hjs] at h
      simp only at h
      split at h
      · injection h with h
        subst h
        assumption
      · exact absurd h (by simp)
    · rw [hjs] at h
      simp only at h
      injection h with h
      subst h
      exact ih hjs

theorem lastAt_none {u : String} : ∀ {f : List Job},
    lastAt u f = none → ∀ j ∈ f, canonUrl j ≠ u := by
  intro f
  induction f with
  | nil => intro _ j hj; simp at hj
  | cons x xs ih =>
    intro h j hj
    rw [lastAt] at h
    rcases hxs : lastAt u xs with _ | y
    · rw [hxs] at h
      simp only at h
      split at h
      · exact absurd h (by simp)
      · rcases List.mem_cons.1 hj with rfl | hj'
        · assumption
        · exact ih hxs j hj'
    · rw [hxs] at h
      exact absurd h (by simp)

theorem lastAt_exists {u : String} : ∀ {f : List Job} {j : Job},
    j ∈ f → canonUrl j = u → ∃ jl, lastAt u f = some jl := by
  intro f
  induction f with
  | nil => intro j hj; simp at hj
  | cons x xs ih =>
    intro j hj hcu
    rw [lastAt]
    rcases hxs : lastAt u xs with _ | y
    · rcases List.mem_cons.1 hj with rfl | hj'
      · exact ⟨j, by simp [hcu]⟩
      · obtain ⟨jl, hjl⟩ := ih hj' hcu
        rw [hjl] at hxs
        exact absurd hxs (by simp)
    · exact ⟨y, by simp⟩

theorem overlayJobs_get_frozen {u : String} :
    ∀ (js : List Job) (m : UrlMap) (w : Int),
    (∀ j ∈ js, canonUrl j ≠ u) →
    mapGet (overlayJobs (fun _ => true) js m w).1 u = mapGet m u := by
  intro js
  induction js with
  | nil => intro m w _; rfl
  | cons j js ih =>
    intro m w hne
    have hju : canonUrl j ≠ u := hne j (List.mem_cons_self _ _)
    have hne' : ∀ x ∈ js, canonUrl x ≠ u := fun x hx => hne x (List.mem_cons_of_mem _ hx)
    rw [overlayJobs]
    by_cases he : canonUrl j = ""
    · rw [if_pos he]
      exact ih m w hne'
    · rw [if_neg he, if_pos rfl]
      rcases hg : (mapGet m (canonUrl j)).bind Job.id with _ | i
    
      · rw [ih _ _ hne', mapGet_set_ne _ _ (fun e => hju e.symm)]
      · rw [ih _ _ hne', mapGet_set_ne _ _ (fun e => hju e.symm)]

theorem overlayJobs_last {u : String} (hu : u ≠ "") :
    ∀ (js : List Job) (m : UrlMap) (w : Int) (jl : Job),
    lastAt u js = some jl →
    ∃ i : Int, mapGet (overlayJobs (fun _ => true) js m w).1 u =
      some { jl with id := some i } := by
  intro js
  induction js with
  | nil => intro m w jl h; simp [lastAt] at h
  | cons j js ih =>
    intro m w jl h
    rw [lastAt] at h
    rcases hjs : lastAt u js with _ | x
    · rw [hjs] at h
      simp only at h
      by_cases hju : canonUrl j = u
      · rw [if_pos hju] at h
        injection h with h
        subst h
        have hne : ¬ canonUrl j = "" := by rw [hju]; exact hu
        rw [overlayJobs, if_neg hne, if_pos rfl]
        rcases hg : (mapGet m (canonUrl j)).bind Job.id with _ | i
        · refine ⟨w + 1, ?_⟩
          rw [overlayJobs_get_frozen js _ _ (lastAt_none hjs), ← hju, mapGet_set_self]
        · refine ⟨i, ?_⟩
          rw [overlayJobs_get_frozen js _ _ (lastAt_none hjs), ← hju, mapGet_set_self]
      · rw [if_neg hju] at h
        exact absurd h (by simp)
    · rw [hjs] at h
      simp only at h
      injection h with h
      subst h
      rw [overlayJobs]
      by_cases he : canonUrl j = ""
      · rw [if_pos he]
        exact ih _ _ x hjs
      · rw [if_neg he, if_pos rfl]
        rcases hg : (mapGet m (canonUrl j)).bind Job.id with _ | i
        · exact ih _ _ x hjs
        · exact ih _ _ x hjs

theorem lastAt_cons_of_some {u : String} {j jl : Job} {js : List Job}
    (h : lastAt u js = some jl) : lastAt u (j :: js) = some jl := by
  rw [lastAt, h]

theorem lastAt_eq_none {u : String} :
    ∀ {js : List Job}, (∀ j ∈ js, canonUrl j ≠ u) → lastAt u js = none := by
  intro js
  induction js with
  | nil => intro _; rfl
  | cons j js ih =>
    intro h
    rw [lastAt, ih (fun x hx => h x (List.mem_cons_of_mem _ hx))]
    simp only
    rw [if_neg (h j (List.mem_cons_self _ _))]

theorem bfEquivOn_keys {d : Option String} {P : String → Prop} :
    ∀ {m m' : UrlMap}, bfEquivOn d P m m' → mapKeys m = mapKeys m' := by
  intro m m' h
  induction h with
  | nil => rfl
  | cons hr _ ih =>
    simp only [mapKeys, List.map_cons] at ih ⊢
    rw [hr.1, ih]

theorem bfEquivOn_get {d : Option String} {P : String → Prop} :
    ∀ {m m' : UrlMap}, bfEquivOn d P m m' → ∀ {u : String} {v : Job},
    mapGet m u = some v →
    ∃ e, mapGet m' u = some e ∧ v.id ≠ none ∧ v.id = e.id ∧
      (P u → applySource d v = applySource d e) := by
  intro m m' h
  induction h with
  | nil => intro u v hget; simp [mapGet] at hget
  | cons hr ht ih =>
    rename_i p q l l'
    intro u v hget
    obtain ⟨p1, p2⟩ := p
    obtain ⟨q1, q2⟩ := q
    obtain ⟨hk, hn, hid, hap⟩ := hr
    simp only at hk hn hid hap
    subst hk
    by_cases h1 : p1 = u
    · subst h1
      simp only [mapGet, if_pos rfl] at hget ⊢
      injection hget with hget
      subst hget
      exact ⟨q2, rfl, hn, hid, hap⟩
    · simp only [mapGet, if_neg h1] at hget ⊢
      exact ih hget

theorem bfEquivOn_mapSet {d : Option String} {P : String → Prop} :
    ∀ {m m' : UrlMap}, bfEquivOn d P m m' → ∀ {u : String} {v e : Job},
    mapGet m' u = some e → v.id ≠ none → v.id = e.id →
    (P u → applySource d v = applySource d e) →
    bfEquivOn d P (mapSet m u v) m' := by
  intro m m' h
  induction h with
  | nil => intro u v e hget; simp [mapGet] at hget
  | cons hr ht ih =>
    rename_i p q l l'
    intro u v e hget hn hid hap
    obtain ⟨p1, p2⟩ := p
    obtain ⟨q1, q2⟩ := q
    have hk : p1 = q1 := hr.1
    subst hk
    by_cases h1 : p1 = u
    · subst h1
      simp only [mapGet, if_pos rfl] at hget
      injection hget with hget
      subst hget
      simp only [mapSet, if_pos rfl]
      exact List.Forall₂.cons ⟨rfl, hn, hid, hap⟩ ht
    · simp only [mapGet, if_neg h1] at hget
      simp only [mapSet, if_neg h1]
      exact List.Forall₂.cons hr (ih hget hn hid hap)

theorem bfEquivOn_mono {d : Option String} {P Q : String → Prop} :
    ∀ {m m' : UrlMap}, bfEquivOn d P m m' →
    (∀ p ∈ m, ∀ q ∈ m', p.1 = q.1 → Q p.1 →
      (P p.1 ∨ applySource d p.2 = applySource d q.2)) →
    bfEquivOn d Q m m' := by
  intro m m' h
  induction h with
  | nil => intro _; exact List.Forall₂.nil
  | cons hr ht ih =>
    rename_i p q l l'
    intro himp
    refine List.Forall₂.cons ⟨hr.1, hr.2.1, hr.2.2.1, fun hq => ?_⟩
      (ih fun p' hp' q' hq' => himp p' (List.mem_cons_of_mem _ hp')
        q' (List.mem_cons_of_mem _ hq'))
    rcases himp p (List.mem_cons_self _ _) q (List.mem_cons_self _ _) hr.1 hq with h1 | h1
    · exact hr.2.2.2 h1
    · exact h1

theorem bfEquiv_values {d : Option String} :
    ∀ {m m' : UrlMap}, bfEquivOn d (fun _ => True) m m' →
    List.Forall₂ (fun v e => v.id ≠ none ∧ v.id = e.id ∧
      applySource d v = applySource d e) (mapValues m) (mapValues m') := by
  intro m m' h
  induction h with
  | nil => exact List.Forall₂.nil
  | cons hr ht ih =>
    exact List.Forall₂.cons ⟨hr.2.1, hr.2.2.1, hr.2.2.2 trivial⟩ ih

theorem backfill_of_equiv (d : Option String) :
    ∀ {vs ms : List Job},
    List.Forall₂ (fun v e => v.id ≠ none ∧ v.id = e.id ∧
      applySource d v = applySource d e) vs ms →
    (∀ e ∈ ms, applySource d e = e) →
    ∀ w : Int, backfillJobs d vs w = (ms, w) := by
  intro vs ms h
  induction h with
  | nil => intro _ w; rfl
  | cons hr ht ih =>
    rename_i v e l l'
    intro hfixall w
    obtain ⟨i, hi⟩ := Option.ne_none_iff_exists'.1 hr.1
    have hid : (applySource d v).id = some i := by rw [applySource_id]; exact hi
    have htail := ih (fun x hx => hfixall x (List.mem_cons_of_mem _ hx)) w
    have hv : applySource d v = e := by
      rw [hr.2.2, hfixall e (List.mem_cons_self _ _)]
    have heid : e.id = some i := by rw [← hr.2.1]; exact hi
    simp only [backfillJobs, hid, htail, hv, heid]

theorem mergeGen_absorbs (d : Option String) (c f : List Job) :
    ∀ (u : String) (jl : Job), u ≠ "" → lastAt u f = some jl →
    ∃ e, mapGet (toAList (mergeGen d (fun _ => true) c f)) u = some e ∧
      ∃ i : Int, e.id = some i ∧ e = applySource d { jl with id := some i } := by
  intro u jl hu hlast
  obtain ⟨i, hget⟩ := overlayJobs_last hu f (seedJobs (fun _ => true) c [])
    (watermark c) jl hlast
  have hget' : mapGet (mergeState d (fun _ => true) c f).1 u =
      some { jl with id := some i } := hget
  have hv : { jl with id := some i } ∈ mapValues (mergeState d (fun _ => true) c f).1 :=
    mem_mapValues.2 ⟨(u, { jl with id := some i }), mapGet_mem hget', rfl⟩
  obtain ⟨hf, _⟩ := backfillJobs_pointwise d (mapValues (mergeState d (fun _ => true) c f).1)
    (mergeState d (fun _ => true) c f).2
  obtain ⟨o, ho, hrel⟩ := forall₂_mem_left hf hv
  have hoM : o ∈ mergeGen d (fun _ => true) c f := by
    rw [mergeGen_eq]
    exact (pySortDesc_perm _).mem_iff.2 ho
  have hco : canonUrl o = u := by
    rw [hrel.1, canonUrl_set_id]
    exact lastAt_canon hlast
  have hoeq : o = applySource d { jl with id := some i } :=
    hrel.2.2.2 (by simp)
  refine ⟨o, ?_, i, ?_, hoeq⟩
  · rw [← hco]
    exact toAList_get_of_mem (mergeGen_url_nodup d (fun _ => true) c f) hoM
  · rw [hoeq, applySource_id]

theorem overlay_absorbed (d : Option String) (M : List Job)
    (hndk : (M.map canonUrl).Nodup)
    (hne : ∀ r ∈ M, canonUrl r ≠ "")
    (hfix : ∀ r ∈ M, applySource d r = r)
    (hids : ∀ r ∈ M, r.id ≠ none) :
    ∀ (js : List Job) (m : UrlMap) (w : Int),
    (∀ u jl, u ≠ "" → lastAt u js = some jl →
      ∃ e, mapGet (toAList M) u = some e ∧
        ∃ i : Int, e.id = some i ∧ e = applySource d { jl with id := some i }) →
    bfEquivOn d (noOcc js) m (toAList M) →
    (overlayJobs (fun _ => true) js m w).2 = w ∧
      bfEquivOn d (fun _ => True) (overlayJobs (fun _ => true) js m w).1 (toAList M) := by
  have hkeyne : ∀ q ∈ toAList M, q.1 ≠ "" := by
    intro q hq
    obtain ⟨r, hr, rfl⟩ := List.mem_map.1 hq
    exact hne r hr
  have hkeynodup : (mapKeys (toAList M)).Nodup := by
    rw [mapKeys_toAList]; exact hndk
  intro js
  induction js with
  | nil =>
    intro m w _ hinv
    refine ⟨rfl, bfEquivOn_mono hinv ?_⟩
    intro p _ q _ _ _
    exact Or.inl (by intro x hx; simp at hx)
  | cons j js ih =>
    intro m w habs hinv
    have habs' : ∀ u jl, u ≠ "" → lastAt u js = some jl →
        ∃ e, mapGet (toAList M) u = some e ∧
          ∃ i : Int, e.id = some i ∧ e = applySource d { jl with id := some i } :=
      fun u jl hu hl => habs u jl hu (lastAt_cons_of_some hl)
    rw [overlayJobs]
    by_cases hu0 : canonUrl j = ""
    · rw [if_pos hu0]
      refine ih m w habs' (bfEquivOn_mono hinv ?_)
      intro p hp q hq hpq hQ
      refine Or.inl ?_
      intro x hx
      rcases List.mem_cons.1 hx with rfl | hx'
      · rw [hu0, hpq]
        exact fun e => hkeyne q hq e.symm
      · exact hQ x hx'
    · rw [if_neg hu0, if_pos rfl]
      -- the fresh record's URL already has an entry with an integer id
      obtain ⟨jl0, hl0⟩ : ∃ jl0, lastAt (canonUrl j) (j :: js) = some jl0 :=
        lastAt_exists (List.mem_cons_self _ _) rfl
      obtain ⟨e0, hgetM, i0, hei0, _⟩ := habs _ jl0 hu0 hl0
      have hkm : mapKeys m = mapKeys (toAList M) := bfEquivOn_keys hinv
      have hkey : canonUrl j ∈ mapKeys m := by
        rw [hkm]
        exact mapGet_some_mem_keys hgetM
      obtain ⟨v, hgetm⟩ := mapKeys_get hkey
      obtain ⟨e1, hgetM1, hvn, hvid, _⟩ := bfEquivOn_get hinv hgetm
      have he01 : e1 = e0 := by
        rw [hgetM] at hgetM1
        injection hgetM1 with h
        exact h.symm
      subst he01
      have hvid0 : v.id = some i0 := by rw [hvid, hei0]
      rcases hg : (mapGet m (canonUrl j)).bind Job.id with _ | i
      · rw [hgetm] at hg
        simp only [Option.some_bind] at hg
        rw [hvid0] at hg
        exact absurd hg (by simp)
      · have hii0 : i = i0 := by
          rw [hgetm] at hg
          simp only [Option.some_bind] at hg
          rw [hvid0] at hg
          injection hg with hg
          exact hg.symm
        subst hii0
        -- the stored record after this step
        have hndm : (mapKeys m).Nodup := by rw [hkm]; exact hkeynodup
        have hs1 : bfEquivOn d (noOcc (j :: js))
            (mapSet m (canonUrl j) { j with id := some i }) (toAList M) := by
          refine bfEquivOn_mapSet hinv hgetM (by simp) (by rw [hei0]) ?_
          intro hno
          exact absurd rfl (hno j (List.mem_cons_self _ _))
        have hs2 : bfEquivOn d (noOcc js)
            (mapSet m (canonUrl j) { j with id := some i }) (toAList M) := by
          refine bfEquivOn_mono hs1 ?_
          intro p hp q hq hpq hQ
          by_cases hpu : p.1 = canonUrl j
          · refine Or.inr ?_
            have hp2 : p.2 = { j with id := some i } := by
              have h1 := mapGet_eq_of_mem_nodup (mapKeys_set_nodup hndm) hp
              rw [hpu, mapGet_set_self] at h1
              injection h1 with h1
              exact h1.symm
            have hq2 : q.2 = e1 := by
              have h1 := mapGet_eq_of_mem_nodup hkeynodup hq
              rw [← hpq, hpu, hgetM] at h1
              injection h1 with h1
              exact h1.symm
            have hlast : lastAt (canonUrl j) (j :: js) = some j := by
              rw [lastAt, lastAt_eq_none ?hno]
              case hno =>
                intro x hx
                exact fun e => hQ x hx (hpu ▸ e)
              simp
            obtain ⟨e2, hgetM2, i2, hei2, heq2⟩ := habs _ j hu0 hlast
            have he02 : e2 = e1 := by
              rw [hgetM] at hgetM2
              injection hgetM2 with h
              exact h.symm
            subst he02
            have hi2 : i2 = i := by
              rw [hei0] at hei2
              injection hei2 with h
              exact h.symm
            subst hi2
            rw [hp2, hq2, heq2, applySource_idem]
          · refine Or.inl ?_
            intro x hx
            rcases List.mem_cons.1 hx with rfl | hx'
            · exact fun e => hpu e.symm
            · exact hQ x hx'
        exact ih _ w habs' hs2

theorem mergeGen_idem (d : Option String) (c f : List Job) :
    mergeGen d (fun _ => true) (mergeGen d (fun _ => true) c f) f =
      mergeGen d (fun _ => true) c f := by
  have hndk : ((mergeGen d (fun _ => true) c f).map canonUrl).Nodup :=
    mergeGen_url_nodup d (fun _ => true) c f
  have hne : ∀ r ∈ mergeGen d (fun _ => true) c f, canonUrl r ≠ "" :=
    mergeGen_url_nonempty d (fun _ => true) c f
  have hfix : ∀ r ∈ mergeGen d (fun _ => true) c f, applySource d r = r :=
    mergeGen_source_applied d (fun _ => true) c f
  have hids : ∀ r ∈ mergeGen d (fun _ => true) c f, r.id ≠ none := by
    intro r hr
    obtain ⟨i, hi⟩ := mergeGen_ids_some d (fun _ => true) c f r hr
    simp [hi]
  have hdesc : descByKey (mergeGen d (fun _ => true) c f) :=
    mergeGen_desc d (fun _ => true) c f
  have hseed : seedJobs (fun _ => true) (mergeGen d (fun _ => true) c f) [] =
      toAList (mergeGen d (fun _ => true) c f) := by
    have h := seedJobs_const_toA (mergeGen d (fun _ => true) c f) [] hne hndk
      (by intro x hx; simp [mapKeys])
    simpa using h
  have hinit : bfEquivOn d (noOcc f) (toAList (mergeGen d (fun _ => true) c f))
      (toAList (mergeGen d (fun _ => true) c f)) := by
    rw [bfEquivOn, List.forall₂_same]
    intro p hp
    obtain ⟨r, hr, rfl⟩ := List.mem_map.1 hp
    exact ⟨rfl, hids r hr, rfl, fun _ => rfl⟩
  obtain ⟨hw2, hfull⟩ := overlay_absorbed d (mergeGen d (fun _ => true) c f)
    hndk hne hfix hids f (toAList (mergeGen d (fun _ => true) c f))
    (watermark (mergeGen d (fun _ => true) c f)) (mergeGen_absorbs d c f) hinit
  have hvals : List.Forall₂ (fun v e => v.id ≠ none ∧ v.id = e.id ∧
      applySource d v = applySource d e)
      (mapValues (overlayJobs (fun _ => true) f
        (toAList (mergeGen d (fun _ => true) c f))
        (watermark (mergeGen d (fun _ => true) c f))).1)
      (mergeGen d (fun _ => true) c f) := by
    have h := bfEquiv_values hfull
    rwa [mapValues_toAList] at h
  have hbf := backfill_of_equiv d hvals hfix
    (overlayJobs (fun _ => true) f (toAList (mergeGen d (fun _ => true) c f))
      (watermark (mergeGen d (fun _ => true) c f))).2
  rw [mergeGen_eq d (fun _ => true) (mergeGen d (fun _ => true) c f) f]
  have hms : mergeState d (fun _ => true) (mergeGen d (fun _ => true) c f) f =
      overlayJobs (fun _ => true) f (toAList (mergeGen d (fun _ => true) c f))
        (watermark (mergeGen d (fun _ => true) c f)) := by
    rw [mergeState, hseed]
  rw [hms, hbf]
  exact pySortDesc_fix hdesc

/-! ## Claim C2 -/

/-- C2: `merge_jobs_by_url` is idempotent in the fresh batch (jobup and
jobroom): merging the result once more with the same `fresh` list yields
the identical collection — so no record receives a new id, no id absent
from the first result appears, and no URL is duplicated. -/
theorem claim2_merge_idempotent :
    (∀ current fresh : List Job,
      Jobup.merge_jobs_by_url (Jobup.merge_jobs_by_url current fresh) fresh =
        Jobup.merge_jobs_by_url current fresh) ∧
    (∀ current fresh : List Job,
      Jobroom.merge_jobs_by_url (Jobroom.merge_jobs_by_url current fresh) fresh =
        Jobroom.merge_jobs_by_url current fresh) :=
  ⟨fun c f => mergeGen_idem none c f, fun c f => mergeGen_idem (some "jobroom") c f⟩
